import Mathlib

/-!
# Route graph of the mesh node manager (`src/mesh/nodemanager/graph.go`)

A shallow embedding of the route graph, its shortest-path trees and the indexed
priority queue they are built with, followed by theorems about them.

Modelling conventions.

* A Go `map[K]V` is an association list `List (K × V)` read through `mapGet`
  (comma-ok read), written through `mapSet` (key kept unique) and `mapDel`.
  A plain read `m[k]` of a missing key gives the zero value: `(mapGet m k).getD 0`.
* Go `int` is the 64-bit two's complement integer: the one addition of the program
  (`relax`) is wrapped by `wrapInt`.
* A slice is a `List`; an index read is `List.getD` with the zero value as default
  (every index the source reads is in range), an index write is `List.set`.
* `range` over a map visits every entry once in an unspecified order; the order of
  the one `range` whose order is observable (the routes of the extracted node in
  `newSP`) is a parameter, `RangeOrder`.
* Loops that Go does not bound (`newSP`, the backward walk of `pathTo`, `sink`) take a
  fuel argument and give `none` when it runs out; `swim` and the reversal loop of
  `pathTo` are bounded by their index and carry enough fuel.
* Records reached through pointers are values: a `DirectRoute` is never written after
  its creation, a `NodeDist` is reachable from one slot of `keys` only, and an `SP` is
  not written once `newSP` has returned it.
-/

set_option autoImplicit false

namespace Nodemanager

/-! ## Maps -/

/-- Comma-ok read of a Go map: the value stored for `k`, if any. -/
def mapGet {K V : Type} [DecidableEq K] : List (K × V) → K → Option V
  | [], _ => none
  | (k', v) :: t, k => if k' = k then some v else mapGet t k

/-- Go map write `m[k] = v`: replaces the entry of `k`, or adds one. -/
def mapSet {K V : Type} [DecidableEq K] : List (K × V) → K → V → List (K × V)
  | [], k, v => [(k, v)]
  | (k', v') :: t, k, v => if k' = k then (k, v) :: t else (k', v') :: mapSet t k v

/-- Go `delete(m, k)`. -/
def mapDel {K V : Type} [DecidableEq K] : List (K × V) → K → List (K × V)
  | [], _ => []
  | (k', v') :: t, k => if k' = k then mapDel t k else (k', v') :: mapDel t k

/-! ## Machine integers -/

/-- Value of `math.MaxInt32`. -/
def MaxInt32 : Int := 2147483647

/-- Result of a Go `int` operation whose mathematical value is `x`
(64-bit two's complement wrap-around). -/
def wrapInt (x : Int) : Int := (x + 2 ^ 63) % 2 ^ 64 - 2 ^ 63

/-! ## Data model -/

/-- Identifier of a mesh node (`cipher.PubKey`), used only as a map key. -/
abbrev PubKey := Nat

/-- Record `DirectRoute`; the fields `from` and `to` of the source are `from_` and `to_` here. -/
structure DirectRoute where
  from_ : PubKey
  to_ : PubKey
  weight : Int
deriving DecidableEq, Repr

/-- Record `NodeDist`. -/
structure NodeDist where
  node : PubKey
  dist : Int
deriving DecidableEq, Repr

/-- Record `MinPQ`: `keys[0]` is a sentinel, the queue entries are `keys[1..]`. -/
structure MinPQ where
  keys : List NodeDist
  positions : List (PubKey × Nat)
deriving DecidableEq, Repr

/-- Record `SP`, a shortest-path tree. -/
structure SP where
  source : PubKey
  distTo : List (PubKey × Int)
  edgeTo : List (PubKey × DirectRoute)
  pq : MinPQ
deriving DecidableEq, Repr

/-- Record `RouteGraph`. -/
structure RouteGraph where
  nodes : List (PubKey × List (PubKey × DirectRoute))
  paths : List (PubKey × SP)
deriving DecidableEq, Repr

/-- The error values `findRoute` can return (`errors.ERR_NO_ROUTE`). -/
inductive RouteError where
  | ERR_NO_ROUTE
deriving DecidableEq, Repr

/-- Order in which the `k`-th `range` over the routes of a node visits them. -/
structure RangeOrder where
  order : Nat → List DirectRoute → List DirectRoute
  perm : ∀ (k : Nat) (l : List DirectRoute), (order k l).Perm l

/-- The order that visits the entries as they are laid out in the association list. -/
def RangeOrder.stored : RangeOrder :=
  { order := fun _ l => l
    perm := fun _ l => List.Perm.refl l }

/-- The order that visits the entries in reverse. -/
def RangeOrder.reversed : RangeOrder :=
  { order := fun _ l => l.reverse
    perm := fun _ l => List.reverse_perm l }

/-! ## Indexed priority queue -/

/-- The zero `NodeDist` that `newPQ` puts at index 0. -/
def zeroND : NodeDist := { node := 0, dist := 0 }

/-- Function `newPQ`. -/
def newPQ : MinPQ := { keys := [zeroND], positions := [] }

/-- Method `isEmpty`. -/
def MinPQ.isEmpty (pq : MinPQ) : Bool := pq.keys.length == 1

/-- Method `contains`. -/
def MinPQ.contains (pq : MinPQ) (node : PubKey) : Bool := (mapGet pq.positions node).isSome

/-- Method `less`. Every call of the source has both indices in range. -/
def MinPQ.less (pq : MinPQ) (i j : Nat) : Bool :=
  decide ((pq.keys.getD i zeroND).dist < (pq.keys.getD j zeroND).dist)

/-- Method `exch`: first the two position writes, left to right, then the swap. -/
def MinPQ.exch (pq : MinPQ) (i j : Nat) : MinPQ :=
  let ki := pq.keys.getD i zeroND
  let kj := pq.keys.getD j zeroND
  { keys := (pq.keys.set i kj).set j ki
    positions := mapSet (mapSet pq.positions ki.node j) kj.node i }

/-- Loop of `swim`; `k` halves at every turn, so fuel `k` is never used up. -/
def MinPQ.swimLoop : Nat → MinPQ → Nat → MinPQ
  | 0, pq, _ => pq
  | fuel + 1, pq, k =>
    if k > 1 ∧ pq.less k (k / 2) = true then swimLoop fuel (pq.exch k (k / 2)) (k / 2) else pq

/-- Method `swim`. -/
def MinPQ.swim (pq : MinPQ) (k : Nat) : MinPQ := pq.swimLoop k k

/-- Loop of `sink`, with `n = len(keys) - 1`: `k` is not updated inside the loop of the
source. -/
def MinPQ.sinkLoop : Nat → MinPQ → Nat → Nat → Option MinPQ
  | 0, _, _, _ => none
  | fuel + 1, pq, k, n =>
    if 2 * k < n then
      let j := 2 * k
      let j := if j < n ∧ pq.less (j + 1) j = true then j + 1 else j
      if pq.less j k = false then some pq else sinkLoop fuel (pq.exch k j) k n
    else some pq

/-- Method `sink` (no caller in the source). -/
def MinPQ.sink (fuel : Nat) (pq : MinPQ) (k : Nat) : Option MinPQ :=
  pq.sinkLoop fuel k (pq.keys.length - 1)

/-- Method `delMin`: the returned node and the queue afterwards. -/
def MinPQ.delMin (pq : MinPQ) : PubKey × MinPQ :=
  let n := pq.keys.length
  if pq.isEmpty = true then ((pq.keys.getD 0 zeroND).node, pq)
  else
    let min := (pq.keys.getD 1 zeroND).node
    let n := n - 1
    let pq1 := pq.exch 1 n
    (min, { keys := pq1.keys.take n, positions := mapDel pq1.positions min })

/-- Method `insert`. -/
def MinPQ.insert (pq : MinPQ) (node : PubKey) (dist : Int) : MinPQ :=
  let keys := pq.keys ++ [{ node := node, dist := dist }]
  let position := keys.length - 1
  MinPQ.swim { keys := keys, positions := mapSet pq.positions node position } position

/-- Method `decreaseKey`: overwrites the priority in place. -/
def MinPQ.decreaseKey (pq : MinPQ) (node : PubKey) (dist : Int) : MinPQ :=
  match mapGet pq.positions node with
  | some position =>
    { pq with keys := pq.keys.set position { pq.keys.getD position zeroND with dist := dist } }
  | none => pq

/-! ## Shortest-path tree -/

/-- Plain read `s.distTo[node]`: zero when the key is missing. -/
def SP.dist (s : SP) (node : PubKey) : Int := (mapGet s.distTo node).getD 0

/-- Method `relax`. -/
def SP.relax (s : SP) (edge : DirectRoute) : SP :=
  let from_ := edge.from_
  let to_ := edge.to_
  let newDist := wrapInt (s.dist from_ + edge.weight)
  if s.dist to_ > newDist then
    let s1 : SP :=
      { s with distTo := mapSet s.distTo to_ newDist, edgeTo := mapSet s.edgeTo to_ edge }
    if s1.pq.contains to_ = true then { s1 with pq := s1.pq.decreaseKey to_ (s1.dist to_) }
    else { s1 with pq := s1.pq.insert to_ (s1.dist to_) }
  else s

/-- Values of the map `graph.nodes[v]` (none when `v` is not a key). -/
def RouteGraph.routesOf (graph : RouteGraph) (v : PubKey) : List DirectRoute :=
  ((mapGet graph.nodes v).getD []).map Prod.snd

/-- State of `newSP` when the extraction loop is entered. -/
def spInit (graph : RouteGraph) (source : PubKey) : SP :=
  let distTo := graph.nodes.foldl (fun d kv => mapSet d kv.1 MaxInt32) []
  { source := source
    distTo := mapSet distTo source 0
    edgeTo := []
    pq := newPQ.insert source 0 }

/-- Extraction loop of `newSP`; `step` counts the turns made so far. -/
def spLoop (ord : RangeOrder) (graph : RouteGraph) : Nat → Nat → SP → Option SP
  | 0, _, _ => none
  | fuel + 1, step, sp =>
    if sp.pq.isEmpty = true then some sp
    else
      let r := sp.pq.delMin
      let sp1 : SP := { sp with pq := r.2 }
      spLoop ord graph fuel (step + 1) ((ord.order step (graph.routesOf r.1)).foldl SP.relax sp1)

/-- Function `newSP`. -/
def newSP (ord : RangeOrder) (fuel : Nat) (graph : RouteGraph) (source : PubKey) : Option SP :=
  spLoop ord graph fuel 0 (spInit graph source)

/-- Second loop of `pathTo`: swaps `path[i]` and `path[j]` while `i < j`. -/
def reverseLoop : Nat → List PubKey → Nat → Nat → List PubKey
  | 0, path, _, _ => path
  | fuel + 1, path, i, j =>
    if i < j then
      reverseLoop fuel ((path.set i (path.getD j 0)).set j (path.getD i 0)) (i + 1) (j - 1)
    else path

/-- The slice `path` after the second loop of `pathTo`, which starts at `i = 0`,
`j = len(path) - 1` and makes fewer than `len(path)` turns. -/
def reverseSlice (path : List PubKey) : List PubKey :=
  reverseLoop path.length path 0 (path.length - 1)

/-- First loop of `pathTo`: the backward walk along `edgeTo`. -/
def SP.pathToLoop (s : SP) : Nat → List PubKey → Option DirectRoute →
    Option (List PubKey × Option RouteError)
  | 0, _, _ => none
  | fuel + 1, path, e =>
    match e with
    | none => some ([], some RouteError.ERR_NO_ROUTE)
    | some e =>
      let path := path ++ [e.from_]
      if e.from_ = s.source then some (reverseSlice path, none)
      else pathToLoop s fuel path (mapGet s.edgeTo e.from_)

/-- Method `pathTo`. -/
def SP.pathTo (s : SP) (fuel : Nat) (to_ : PubKey) : Option (List PubKey × Option RouteError) :=
  s.pathToLoop fuel [to_] (mapGet s.edgeTo to_)

/-! ## Route graph -/

/-- Method `clear`. -/
def RouteGraph.clear (_s : RouteGraph) : RouteGraph := { nodes := [], paths := [] }

/-- Function `newGraph`. -/
def newGraph : RouteGraph := RouteGraph.clear { nodes := [], paths := [] }

/-- Method `addDirectRoute`. -/
def RouteGraph.addDirectRoute (s : RouteGraph) (from_ to_ : PubKey) (weight : Int) : RouteGraph :=
  if from_ = to_ ∨ weight < 1 then s
  else
    match mapGet s.nodes from_ with
    | none =>
      { s with nodes := mapSet s.nodes from_ (mapSet [] to_ { from_ := from_, to_ := to_, weight := weight }) }
    | some routes =>
      if (mapGet routes to_).isSome = true then s
      else
        { s with nodes := mapSet s.nodes from_ (mapSet routes to_ { from_ := from_, to_ := to_, weight := weight }) }

/-- Method `findRoute`: the state afterwards and the returned pair. -/
def RouteGraph.findRoute (ord : RangeOrder) (fuel : Nat) (s : RouteGraph) (from_ to_ : PubKey) :
    Option (RouteGraph × (List PubKey × Option RouteError)) :=
  match mapGet s.paths from_ with
  | some sp => (sp.pathTo fuel to_).map (fun r => (s, r))
  | none =>
    match newSP ord fuel s from_ with
    | none => none
    | some sp => (sp.pathTo fuel to_).map (fun r => ({ s with paths := mapSet s.paths from_ sp }, r))

/-! ## Notions used to state the properties -/

/-- The stored direct route `nodes[a][b]`, if any. -/
def RouteGraph.route (g : RouteGraph) (a b : PubKey) : Option DirectRoute :=
  (mapGet g.nodes a).bind (fun routes => mapGet routes b)

/-- The list `p` names the nodes of a path of stored direct routes from `a` to `b`
(the path of no route, `[a]`, leads from `a` to `a`). -/
def RouteGraph.IsPath (g : RouteGraph) (a b : PubKey) (p : List PubKey) : Prop :=
  p.head? = some a ∧ p.getLast? = some b ∧
    List.Chain' (fun x y => (g.route x y).isSome = true) p

/-- Sum of the stored weights along the consecutive pairs of `p`. -/
def RouteGraph.pathWeight (g : RouteGraph) : List PubKey → Int
  | x :: y :: rest => ((g.route x y).map DirectRoute.weight).getD 0 + pathWeight g (y :: rest)
  | _ => 0

/-- Sum of the weights of all stored direct routes. -/
def RouteGraph.totalWeight (g : RouteGraph) : Int :=
  (g.nodes.map (fun kv => (kv.2.map (fun te => te.2.weight)).sum)).sum

/-- Graph states built from `newGraph()` by `addDirectRoute` calls alone. -/
inductive Built : RouteGraph → Prop
  | empty : Built newGraph
  | add (g : RouteGraph) (from_ to_ : PubKey) (weight : Int) :
      Built g → Built (g.addDirectRoute from_ to_ weight)

/-- There is a walk of stored direct routes from `a` to `b` of total weight `d`. -/
inductive Walk (g : RouteGraph) (a : PubKey) : PubKey → Int → Prop
  | refl : Walk g a a 0
  | step (b c : PubKey) (d : Int) (e : DirectRoute) :
      Walk g a b d → g.route b c = some e → Walk g a c (d + e.weight)

/-- Reached nodes of a tree: the source and the nodes with a predecessor edge. -/
def SP.visited (s : SP) (x : PubKey) : Prop :=
  x = s.source ∨ (mapGet s.edgeTo x).isSome = true

/-- Adjacency invariant: keys are unique and every stored route sits under its own
endpoints, joins two different nodes and has a weight of at least one. -/
def GraphOK (g : RouteGraph) : Prop :=
  (g.nodes.map Prod.fst).Nodup ∧
    ∀ v routes, (v, routes) ∈ g.nodes →
      (routes.map Prod.fst).Nodup ∧
        ∀ t e, (t, e) ∈ routes → e.from_ = v ∧ e.to_ = t ∧ v ≠ t ∧ 1 ≤ e.weight

/-- Reverse-index invariant of the queue: `positions` maps exactly the nodes stored
at the indices from 1 on to their index. -/
def PQWF (pq : MinPQ) : Prop :=
  1 ≤ pq.keys.length ∧
    ∀ node i, mapGet pq.positions node = some i ↔
      (1 ≤ i ∧ ∃ nd, pq.keys[i]? = some nd ∧ nd.node = node)

/-- Destinations of the stored direct routes. -/
def RouteGraph.targets (g : RouteGraph) : Finset PubKey :=
  (g.nodes.flatMap (fun kv => kv.2.map (fun te => te.2.to_))).toFinset

/-- Termination measure of the extraction loop of `newSP`: twice the summed distances
of the route destinations, counted from the least `int`, plus the length of `keys`. -/
def spMeasure (g : RouteGraph) (sp : SP) : Int :=
  2 * Finset.sum g.targets (fun x => sp.dist x + 2 ^ 63) + (sp.pq.keys.length : Int)

/-- No stored weight is large enough for the addition in `relax` to wrap around. -/
def SmallWeights (g : RouteGraph) : Prop :=
  ∀ v e, e ∈ g.routesOf v → e.weight ≤ 2 ^ 62

/-- Invariant of `newSP` that holds for every weight: the queue index is consistent,
predecessor edges are stored routes that end in their key, and only nodes that a walk
from the source reaches are queued or have their routes pending. The routes of the
extracted node that the inner loop has still to relax are `pending`. -/
structure SPInv (g : RouteGraph) (src : PubKey) (pending : List DirectRoute) (sp : SP) :
    Prop where
  wf : PQWF sp.pq
  source_eq : sp.source = src
  edge : ∀ x e, mapGet sp.edgeTo x = some e →
    e.to_ = x ∧ g.route e.from_ x = some e ∧ ∃ d, Walk g src e.from_ d
  queued : ∀ x, sp.pq.contains x = true → ∃ d, Walk g src x d
  pend : ∀ e, e ∈ pending → e ∈ g.routesOf e.from_ ∧ ∃ d, Walk g src e.from_ d

/-- Invariant of `newSP` on graphs whose weights cannot make `relax` wrap around:
distances stay between 0 and `MaxInt32`, every predecessor edge is tight or slack in the
right direction, and every route out of a reached node that is not queued is relaxed, the
pending ones excepted. -/
structure SPDist (g : RouteGraph) (src : PubKey) (pending : List DirectRoute) (sp : SP) :
    Prop where
  bound : ∀ x, 0 ≤ sp.dist x ∧ sp.dist x ≤ MaxInt32
  source_dist : sp.dist src = 0
  tension : ∀ x e, mapGet sp.edgeTo x = some e → sp.dist e.from_ + e.weight ≤ sp.dist x
  pred_visited : ∀ x e, mapGet sp.edgeTo x = some e → sp.visited e.from_
  queued_visited : ∀ x, sp.pq.contains x = true → sp.visited x
  pend_visited : ∀ e, e ∈ pending → sp.visited e.from_
  relaxed : ∀ u, sp.visited u → sp.pq.contains u = false →
    ∀ e, e ∈ g.routesOf u → e ∉ pending → sp.dist e.to_ ≤ sp.dist u + e.weight
  unvisited : ∀ x, x ∈ g.nodes.map Prod.fst → x ≠ src → mapGet sp.edgeTo x = none →
    sp.dist x = MaxInt32

/-- The graph after a sequence of `addDirectRoute(from, to, weight)` calls. -/
def RouteGraph.addAll (g : RouteGraph) (calls : List (PubKey × PubKey × Int)) : RouteGraph :=
  calls.foldl (fun s c => s.addDirectRoute c.1 c.2.1 c.2.2) g

/-- Graph states reachable from `newGraph()` by `addDirectRoute`, `findRoute` and `clear`
calls; a `findRoute` call counts when it returns. -/
inductive Reachable : RouteGraph → Prop
  | new : Reachable newGraph
  | add (g : RouteGraph) (from_ to_ : PubKey) (weight : Int) :
      Reachable g → Reachable (g.addDirectRoute from_ to_ weight)
  | find (g g1 : RouteGraph) (ord : RangeOrder) (fuel : Nat) (from_ to_ : PubKey)
      (r : List PubKey × Option RouteError) :
      Reachable g → g.findRoute ord fuel from_ to_ = some (g1, r) → Reachable g1
  | clear (g : RouteGraph) : Reachable g → Reachable g.clear

/-- The entries of the queue: `keys[1..]`. -/
def MinPQ.entries (pq : MinPQ) : List NodeDist := pq.keys.tail

/-- Min-heap order of `keys`: `keys[i/2].dist <= keys[i].dist` for `2 <= i < len(keys)`. -/
def HeapOrdered (pq : MinPQ) : Prop :=
  ∀ i, i < pq.keys.length → 2 ≤ i →
    (pq.keys.getD (i / 2) zeroND).dist ≤ (pq.keys.getD i zeroND).dist

/-- Queues reachable from `newPQ()` by `insert` (of a key not contained), `decreaseKey` and
`delMin` calls, together with the keys inserted so far and not yet returned by `delMin`. -/
inductive PQReach : MinPQ → List PubKey → Prop
  | new : PQReach newPQ []
  | insert (pq : MinPQ) (live : List PubKey) (node : PubKey) (dist : Int) :
      PQReach pq live → pq.contains node = false → PQReach (pq.insert node dist) (node :: live)
  | decreaseKey (pq : MinPQ) (live : List PubKey) (node : PubKey) (dist : Int) :
      PQReach pq live → PQReach (pq.decreaseKey node dist) live
  | delMin (pq : MinPQ) (live : List PubKey) :
      PQReach pq live → PQReach pq.delMin.2 (live.filter (fun k => decide (k ≠ pq.delMin.1)))

/-! # Theorems -/

/-! ## Maps -/

theorem mapGet_mapSet {K V : Type} [DecidableEq K] (m : List (K × V)) (k k' : K) (v : V) :
    mapGet (mapSet m k v) k' = if k = k' then some v else mapGet m k' := by
  induction m with
  | nil => simp [mapSet, mapGet]
  | cons hd tl ih =>
    obtain ⟨a, b⟩ := hd
    by_cases h : a = k
    · subst h
      by_cases h2 : a = k' <;> simp [mapSet, mapGet, h2]
    · by_cases h2 : a = k'
      · subst h2
        have h3 : ¬ k = a := fun h3 => h h3.symm
        simp [mapSet, mapGet, h, h3]
      · simp [mapSet, mapGet, h, h2, ih]

theorem mapGet_mapDel {K V : Type} [DecidableEq K] (m : List (K × V)) (k k' : K) :
    mapGet (mapDel m k) k' = if k = k' then none else mapGet m k' := by
  induction m with
  | nil => simp [mapDel, mapGet]
  | cons hd tl ih =>
    obtain ⟨a, b⟩ := hd
    by_cases h : a = k
    · subst h
      by_cases h2 : a = k'
      · subst h2
        simpa [mapDel, mapGet] using ih
      · simpa [mapDel, mapGet, h2] using ih
    · by_cases h2 : a = k'
      · subst h2
        have h3 : ¬ k = a := fun h3 => h h3.symm
        simp [mapDel, mapGet, h, h3]
      · simp [mapDel, mapGet, h, h2, ih]

theorem mem_of_mapGet {K V : Type} [DecidableEq K] (m : List (K × V)) (k : K) (v : V)
    (h : mapGet m k = some v) : (k, v) ∈ m := by
  induction m with
  | nil => simp [mapGet] at h
  | cons hd tl ih =>
    obtain ⟨a, b⟩ := hd
    by_cases h1 : a = k
    · subst h1
      simp [mapGet] at h
      simp [h]
    · simp [mapGet, h1] at h
      exact List.mem_cons_of_mem _ (ih h)

theorem mapGet_of_mem {K V : Type} [DecidableEq K] (m : List (K × V)) (k : K) (v : V)
    (hn : (m.map Prod.fst).Nodup) (h : (k, v) ∈ m) : mapGet m k = some v := by
  induction m with
  | nil => simp at h
  | cons hd tl ih =>
    obtain ⟨a, b⟩ := hd
    simp only [List.map_cons, List.nodup_cons] at hn
    rcases List.mem_cons.mp h with h1 | h1
    · cases h1
      simp [mapGet]
    · have hne : a ≠ k := by
        intro hak
        subst hak
        exact hn.1 (List.mem_map.mpr ⟨(a, v), h1, rfl⟩)
      simp [mapGet, hne, ih hn.2 h1]

theorem mem_mapSet {K V : Type} [DecidableEq K] (m : List (K × V)) (k : K) (v : V)
    (x : K × V) (h : x ∈ mapSet m k v) : x = (k, v) ∨ x ∈ m := by
  induction m with
  | nil => simp [mapSet] at h; exact Or.inl h
  | cons hd tl ih =>
    obtain ⟨a, b⟩ := hd
    by_cases h1 : a = k
    · subst h1
      simp only [mapSet, if_true, List.mem_cons] at h
      rcases h with h | h
      · exact Or.inl h
      · exact Or.inr (List.mem_cons_of_mem _ h)
    · simp only [mapSet, h1, if_false, List.mem_cons] at h
      rcases h with h | h
      · exact Or.inr (h ▸ List.mem_cons_self _ _)
      · rcases ih h with h2 | h2
        · exact Or.inl h2
        · exact Or.inr (List.mem_cons_of_mem _ h2)

theorem keys_mapSet {K V : Type} [DecidableEq K] (m : List (K × V)) (k : K) (v : V) :
    (mapSet m k v).map Prod.fst =
      if k ∈ m.map Prod.fst then m.map Prod.fst else m.map Prod.fst ++ [k] := by
  induction m with
  | nil => simp [mapSet]
  | cons hd tl ih =>
    obtain ⟨a, b⟩ := hd
    by_cases h1 : a = k
    · subst h1
      simp [mapSet]
    · have h2 : ¬ k = a := fun h => h1 h.symm
      simp only [mapSet, h1, if_false, List.map_cons, ih, List.mem_cons, h2, false_or]
      split <;> simp

theorem nodup_mapSet {K V : Type} [DecidableEq K] (m : List (K × V)) (k : K) (v : V)
    (h : (m.map Prod.fst).Nodup) : ((mapSet m k v).map Prod.fst).Nodup := by
  rw [keys_mapSet]
  split
  · exact h
  · rename_i hk
    exact List.Nodup.append h (List.nodup_singleton k) (by simpa using hk)

theorem mapGet_eq_none_of_not_mem {K V : Type} [DecidableEq K] (m : List (K × V)) (k : K)
    (h : k ∉ m.map Prod.fst) : mapGet m k = none := by
  cases hg : mapGet m k with
  | none => rfl
  | some v => exact absurd (List.mem_map.mpr ⟨(k, v), mem_of_mapGet m k v hg, rfl⟩) h

theorem graphOK_newGraph : GraphOK newGraph := by
  constructor
  · simp [newGraph, RouteGraph.clear]
  · intro v routes h
    simp [newGraph, RouteGraph.clear] at h

theorem graphOK_setRoutes (g : RouteGraph) (f t : PubKey) (w : Int) (routes : List (PubKey × DirectRoute))
    (hg : GraphOK g) (hft : f ≠ t) (hw : 1 ≤ w)
    (hr : (routes.map Prod.fst).Nodup)
    (hrs : ∀ t' e, (t', e) ∈ routes → e.from_ = f ∧ e.to_ = t' ∧ f ≠ t' ∧ 1 ≤ e.weight) :
    GraphOK { g with nodes := mapSet g.nodes f (mapSet routes t { from_ := f, to_ := t, weight := w }) } := by
  constructor
  · exact nodup_mapSet _ _ _ hg.1
  · intro v rs hv
    rcases mem_mapSet _ _ _ _ hv with h | h
    · cases h
      refine ⟨nodup_mapSet _ _ _ hr, ?_⟩
      intro t' e he
      rcases mem_mapSet _ _ _ _ he with h2 | h2
      · cases h2
        exact ⟨rfl, rfl, hft, hw⟩
      · exact hrs t' e h2
    · exact hg.2 v rs h

theorem graphOK_add (g : RouteGraph) (f t : PubKey) (w : Int) (hg : GraphOK g) :
    GraphOK (g.addDirectRoute f t w) := by
  unfold RouteGraph.addDirectRoute
  split
  · exact hg
  · rename_i hc
    have hft : f ≠ t := fun h => hc (Or.inl h)
    have hw : 1 ≤ w := by
      by_contra h
      exact hc (Or.inr (by omega))
    split
    · exact graphOK_setRoutes g f t w [] hg hft hw (by simp) (by simp)
    · rename_i routes hroutes
      split
      · exact hg
      · have hm := hg.2 f routes (mem_of_mapGet _ _ _ hroutes)
        exact graphOK_setRoutes g f t w routes hg hft hw hm.1 hm.2

theorem Built.graphOK {g : RouteGraph} (h : Built g) : GraphOK g := by
  induction h with
  | empty => exact graphOK_newGraph
  | add g f t w _ ih => exact graphOK_add g f t w ih

theorem Built.paths_nil {g : RouteGraph} (h : Built g) : g.paths = [] := by
  induction h with
  | empty => rfl
  | add g f t w _ ih =>
    unfold RouteGraph.addDirectRoute
    split
    · exact ih
    · split
      · exact ih
      · split
        · exact ih
        · exact ih

theorem route_of_mem_routesOf {g : RouteGraph} (hg : GraphOK g) {v : PubKey} {e : DirectRoute}
    (h : e ∈ g.routesOf v) :
    e.from_ = v ∧ e.to_ ≠ v ∧ 1 ≤ e.weight ∧ g.route v e.to_ = some e := by
  unfold RouteGraph.routesOf at h
  cases hm : mapGet g.nodes v with
  | none => simp [hm] at h
  | some routes =>
    simp only [hm, Option.getD_some, List.mem_map] at h
    obtain ⟨⟨t, e'⟩, hmem, he⟩ := h
    simp only at he
    subst he
    have h1 := hg.2 v routes (mem_of_mapGet _ _ _ hm)
    have h2 := h1.2 t e' hmem
    refine ⟨h2.1, ?_, h2.2.2.2, ?_⟩
    · rw [h2.2.1]; exact fun h => h2.2.2.1 h.symm
    · unfold RouteGraph.route
      rw [hm, h2.2.1]
      exact mapGet_of_mem _ _ _ h1.1 hmem

theorem mem_routesOf_of_route {g : RouteGraph} (hg : GraphOK g) {a b : PubKey} {e : DirectRoute}
    (h : g.route a b = some e) :
    e ∈ g.routesOf a ∧ e.from_ = a ∧ e.to_ = b ∧ a ≠ b ∧ 1 ≤ e.weight := by
  unfold RouteGraph.route at h
  cases hm : mapGet g.nodes a with
  | none => simp [hm] at h
  | some routes =>
    simp only [hm, Option.some_bind] at h
    have hmem := mem_of_mapGet _ _ _ h
    have h1 := hg.2 a routes (mem_of_mapGet _ _ _ hm)
    have h2 := h1.2 b e hmem
    refine ⟨?_, h2.1, h2.2.1, h2.2.2.1, h2.2.2.2⟩
    unfold RouteGraph.routesOf
    simp only [hm, Option.getD_some, List.mem_map]
    exact ⟨(b, e), hmem, rfl⟩

/-! ## The reversal loop of `pathTo` -/

theorem set_focus (a c : List PubKey) (x v : PubKey) (n : Nat) (hn : n = a.length) :
    (a ++ x :: c).set n v = a ++ v :: c := by
  subst hn
  induction a with
  | nil => rfl
  | cons h t ih => simp [ih]

theorem getD_focus (a c : List PubKey) (x d : PubKey) (n : Nat) (hn : n = a.length) :
    (a ++ x :: c).getD n d = x := by
  subst hn
  induction a with
  | nil => rfl
  | cons h t ih => simpa using ih

theorem reverseLoop_spec (fuel : Nat) :
    ∀ (a mid b : List PubKey), mid.length ≤ 2 * fuel →
      reverseLoop fuel (a ++ mid ++ b) a.length (a.length + mid.length - 1) =
        a ++ mid.reverse ++ b := by
  induction fuel with
  | zero =>
    intro a mid b h
    have : mid = [] := List.length_eq_zero.mp (by omega)
    subst this
    rfl
  | succ n ih =>
    intro a mid b h
    cases mid with
    | nil => simp [reverseLoop]
    | cons x rest =>
      rcases List.eq_nil_or_concat rest with hr | ⟨mid', y, hr⟩
      · subst hr
        simp [reverseLoop]
      · rw [List.concat_eq_append] at hr
        subst hr
        have hlt : a.length < a.length + (x :: (mid' ++ [y])).length - 1 := by
          simp only [List.length_cons, List.length_append, List.length_nil]
          omega
        have hj : a.length + (x :: (mid' ++ [y])).length - 1 = (a ++ x :: mid').length := by
          simp only [List.length_cons, List.length_append, List.length_nil]
          omega
        have hP : a ++ (x :: (mid' ++ [y])) ++ b = (a ++ x :: mid') ++ y :: b := by simp
        have hP0 : a ++ (x :: (mid' ++ [y])) ++ b = a ++ x :: (mid' ++ y :: b) := by simp
        simp only [reverseLoop, hlt, if_true]
        rw [hj]
        have h1 : (a ++ (x :: (mid' ++ [y])) ++ b).getD (a ++ x :: mid').length 0 = y := by
          rw [hP]; exact getD_focus _ _ _ _ _ rfl
        have h2 : (a ++ (x :: (mid' ++ [y])) ++ b).getD a.length 0 = x := by
          rw [hP0]; exact getD_focus _ _ _ _ _ rfl
        rw [h1, h2]
        have h3 : (a ++ (x :: (mid' ++ [y])) ++ b).set a.length y = (a ++ y :: mid') ++ y :: b := by
          rw [hP0, set_focus _ _ _ _ _ rfl]; simp
        have h4 : ((a ++ y :: mid') ++ y :: b).set (a ++ x :: mid').length x =
            (a ++ [y]) ++ mid' ++ (x :: b) := by
          rw [set_focus _ _ _ _ _ (by simp)]; simp
        rw [h3, h4]
        have h5 : a.length + 1 = (a ++ [y]).length := by simp
        have h6 : (a ++ x :: mid').length - 1 = (a ++ [y]).length + mid'.length - 1 := by
          simp only [List.length_cons, List.length_append, List.length_nil]
          omega
        rw [h5, h6, ih (a ++ [y]) mid' (x :: b)
          (by simp only [List.length_cons, List.length_append, List.length_nil] at h; omega)]
        simp

theorem reverseSlice_eq (path : List PubKey) : reverseSlice path = path.reverse := by
  have := reverseLoop_spec path.length [] path [] (by omega)
  simpa [reverseSlice] using this

theorem pathToLoop_mono (s : SP) (fuel : Nat) :
    ∀ (path : List PubKey) (e : Option DirectRoute) (r : List PubKey × Option RouteError),
      s.pathToLoop fuel path e = some r → ∀ k, s.pathToLoop (fuel + k) path e = some r := by
  induction fuel with
  | zero => intro path e r h; simp [SP.pathToLoop] at h
  | succ n ih =>
    intro path e r h k
    have hk : n + 1 + k = (n + k) + 1 := by omega
    rw [hk]
    cases e with
    | none => simpa [SP.pathToLoop] using h
    | some e =>
      simp only [SP.pathToLoop] at h ⊢
      split
      · rename_i hs
        simpa [hs] using h
      · rename_i hs
        simp only [hs, if_false] at h
        exact ih _ _ _ h k

theorem pathTo_mono (s : SP) (fuel fuel' : Nat) (t : PubKey)
    (r : List PubKey × Option RouteError) (h : s.pathTo fuel t = some r) (hle : fuel ≤ fuel') :
    s.pathTo fuel' t = some r := by
  obtain ⟨k, rfl⟩ := Nat.exists_eq_add_of_le hle
  exact pathToLoop_mono s fuel _ _ r h k

theorem findRoute_cached (g : RouteGraph) (ord : RangeOrder) (fuel : Nat) (f t : PubKey) (sp : SP)
    (h : mapGet g.paths f = some sp) :
    g.findRoute ord fuel f t = (sp.pathTo fuel t).map (fun r => (g, r)) := by
  simp [RouteGraph.findRoute, h]

theorem findRoute_fresh (g : RouteGraph) (ord : RangeOrder) (fuel : Nat) (f t : PubKey)
    (h : mapGet g.paths f = none) :
    g.findRoute ord fuel f t =
      (newSP ord fuel g f).bind (fun sp =>
        (sp.pathTo fuel t).map (fun r => ({ g with paths := mapSet g.paths f sp }, r))) := by
  simp only [RouteGraph.findRoute, h]
  cases newSP ord fuel g f <;> rfl

/-- The tree that serves `findRoute(from, to)` is in the cache afterwards, the
adjacency is untouched, and the answer is that tree's `pathTo`. -/
theorem findRoute_some (g : RouteGraph) (ord : RangeOrder) (fuel : Nat) (f t : PubKey)
    (g1 : RouteGraph) (r : List PubKey × Option RouteError)
    (h : g.findRoute ord fuel f t = some (g1, r)) :
    ∃ sp, mapGet g1.paths f = some sp ∧ sp.pathTo fuel t = some r ∧ g1.nodes = g.nodes ∧
      (mapGet g.paths f = some sp ∧ g1 = g ∨
        mapGet g.paths f = none ∧ newSP ord fuel g f = some sp ∧
          g1 = { g with paths := mapSet g.paths f sp }) := by
  cases hc : mapGet g.paths f with
  | some sp =>
    rw [findRoute_cached g ord fuel f t sp hc] at h
    cases hp : sp.pathTo fuel t with
    | none => simp [hp] at h
    | some r' =>
      simp only [hp, Option.map_some', Option.some.injEq, Prod.mk.injEq] at h
      obtain ⟨h1, h2⟩ := h
      subst h1; subst h2
      exact ⟨sp, hc, hp, rfl, Or.inl ⟨rfl, rfl⟩⟩
  | none =>
    rw [findRoute_fresh g ord fuel f t hc] at h
    cases hn : newSP ord fuel g f with
    | none => simp [hn] at h
    | some sp =>
      cases hp : sp.pathTo fuel t with
      | none => simp [hn, hp] at h
      | some r' =>
        simp only [hn, hp, Option.some_bind, Option.map_some', Option.some.injEq,
          Prod.mk.injEq] at h
        obtain ⟨h1, h2⟩ := h
        subst h1; subst h2
        refine ⟨sp, ?_, hp, rfl, Or.inr ⟨rfl, rfl, rfl⟩⟩
        simp [mapGet_mapSet]

/-- C7: a call `addDirectRoute(from, to, weight)` with `from == to` or `weight < 1`
leaves the state unchanged, the adjacency map `nodes` and the tree cache `paths` alike,
so `findRoute` gives for every pair what it would have given without the call. -/
theorem addDirectRoute_rejected_is_noop (g : RouteGraph) (from_ to_ : PubKey) (weight : Int)
    (h : from_ = to_ ∨ weight < 1) :
    g.addDirectRoute from_ to_ weight = g ∧
      (g.addDirectRoute from_ to_ weight).nodes = g.nodes ∧
      (g.addDirectRoute from_ to_ weight).paths = g.paths ∧
      ∀ (ord : RangeOrder) (fuel : Nat) (x y : PubKey),
        (g.addDirectRoute from_ to_ weight).findRoute ord fuel x y = g.findRoute ord fuel x y := by
  have h0 : g.addDirectRoute from_ to_ weight = g := by
    unfold RouteGraph.addDirectRoute
    rw [if_pos h]
  refine ⟨h0, ?_, ?_, ?_⟩
  · rw [h0]
  · rw [h0]
  · intro ord fuel x y
    rw [h0]

/-- C7 at concrete inputs: the self-loop `(1, 1, 5)` on the graph holding `1 -> 2`. -/
theorem addDirectRoute_rejected_is_noop_witness :
    (newGraph.addDirectRoute 1 2 1).addDirectRoute 1 1 5 = newGraph.addDirectRoute 1 2 1 ∧
      ((newGraph.addDirectRoute 1 2 1).addDirectRoute 1 1 5).nodes =
        (newGraph.addDirectRoute 1 2 1).nodes ∧
      ((newGraph.addDirectRoute 1 2 1).addDirectRoute 1 1 5).paths =
        (newGraph.addDirectRoute 1 2 1).paths ∧
      ∀ (ord : RangeOrder) (fuel : Nat) (x y : PubKey),
        ((newGraph.addDirectRoute 1 2 1).addDirectRoute 1 1 5).findRoute ord fuel x y =
          (newGraph.addDirectRoute 1 2 1).findRoute ord fuel x y :=
  addDirectRoute_rejected_is_noop (newGraph.addDirectRoute 1 2 1) 1 1 5 (Or.inl rfl)

/-- C8: when a direct route `from -> to` is already stored, `addDirectRoute(from, to, w')`
leaves the state unchanged for every `w'`, and the stored route keeps its weight. -/
theorem addDirectRoute_first_wins (g : RouteGraph) (from_ to_ : PubKey) (r : DirectRoute)
    (w' : Int) (h : g.route from_ to_ = some r) :
    g.addDirectRoute from_ to_ w' = g ∧
      (g.addDirectRoute from_ to_ w').route from_ to_ = some r := by
  have h0 : g.addDirectRoute from_ to_ w' = g := by
    unfold RouteGraph.route at h
    unfold RouteGraph.addDirectRoute
    cases hm : mapGet g.nodes from_ with
    | none => simp [hm] at h
    | some routes =>
      simp only [hm, Option.some_bind] at h
      simp [h]
  exact ⟨h0, by rw [h0]; exact h⟩

/-- C8 at the inputs of the claim: on the empty graph, `addDirectRoute(1, 2, 3)` followed by
`addDirectRoute(1, 2, 7)` gives the state of `addDirectRoute(1, 2, 3)` alone, weight 3. -/
theorem addDirectRoute_first_wins_witness :
    (newGraph.addDirectRoute 1 2 3).addDirectRoute 1 2 7 = newGraph.addDirectRoute 1 2 3 ∧
      ((newGraph.addDirectRoute 1 2 3).addDirectRoute 1 2 7).route 1 2 =
        some { from_ := 1, to_ := 2, weight := 3 } :=
  addDirectRoute_first_wins (newGraph.addDirectRoute 1 2 3) 1 2
    { from_ := 1, to_ := 2, weight := 3 } 7 (by decide)

/-- C9: when `findRoute(from, to)` returns, the same call made again with no mutation in
between returns the identical path and error and leaves the state as it is, whatever
the iteration order and for every fuel at least as large. -/
theorem findRoute_twice_same (g g1 : RouteGraph) (ord1 ord2 : RangeOrder) (fuel fuel' : Nat)
    (from_ to_ : PubKey) (r : List PubKey × Option RouteError)
    (h : g.findRoute ord1 fuel from_ to_ = some (g1, r)) (hf : fuel ≤ fuel') :
    g1.findRoute ord2 fuel' from_ to_ = some (g1, r) := by
  obtain ⟨sp, hc, hp, _, _⟩ := findRoute_some g ord1 fuel from_ to_ g1 r h
  rw [findRoute_cached g1 ord2 fuel' from_ to_ sp hc, pathTo_mono sp fuel fuel' to_ r hp hf]
  rfl


/-- C9 at concrete inputs: on the graph `1 -> 2`, `2 -> 1` the first call builds the tree of
node 1 and returns `[1, 2]`; the second call, with another order and more fuel, agrees. -/
theorem findRoute_twice_same_witness :
    ∃ g1, ((newGraph.addDirectRoute 1 2 1).addDirectRoute 2 1 1).findRoute
          RangeOrder.stored 10 1 2 = some (g1, ([1, 2], none)) ∧
      g1.findRoute RangeOrder.reversed 12 1 2 = some (g1, ([1, 2], none)) := by
  have h : ((newGraph.addDirectRoute 1 2 1).addDirectRoute 2 1 1).findRoute
      RangeOrder.stored 10 1 2 =
        some (((((newGraph.addDirectRoute 1 2 1).addDirectRoute 2 1 1).findRoute
          RangeOrder.stored 10 1 2).map Prod.fst).getD newGraph, ([1, 2], none)) := by
    decide
  exact ⟨_, h, findRoute_twice_same _ _ _ _ 10 12 1 2 _ h (by decide)⟩

theorem perm_nil_order (ord : RangeOrder) (k : Nat) : ord.order k [] = [] :=
  List.Perm.eq_nil (ord.perm k [])

/-- C10: after `clear()` the adjacency map and the tree cache are empty, the state is that
of `newGraph()`, and `findRoute(from, to)` returns `ERR_NO_ROUTE` with an empty path
(two turns of fuel are enough for the one extraction the loop of `newSP` makes). -/
theorem clear_then_no_route (g : RouteGraph) (ord : RangeOrder) (fuel : Nat)
    (from_ to_ : PubKey) :
    g.clear = newGraph ∧ g.clear.nodes = [] ∧ g.clear.paths = [] ∧
      (g.clear.findRoute ord (fuel + 2) from_ to_).map Prod.snd =
        some ([], some RouteError.ERR_NO_ROUTE) := by
  refine ⟨rfl, rfl, rfl, ?_⟩
  simp [RouteGraph.findRoute, RouteGraph.clear, mapGet, newSP, spInit, spLoop, newPQ,
    MinPQ.insert, MinPQ.swim, MinPQ.swimLoop, MinPQ.isEmpty, MinPQ.delMin, MinPQ.exch,
    RouteGraph.routesOf, perm_nil_order, SP.pathTo, SP.pathToLoop, mapSet]

/-! ## Priority queue: the reverse index -/

theorem getD_of_getElem? (l : List NodeDist) (i : Nat) (nd : NodeDist) (h : l[i]? = some nd) :
    l.getD i zeroND = nd := by
  rw [List.getD_eq_getElem?_getD, h]; rfl

theorem getElem?_getD_of_lt (l : List NodeDist) (i : Nat) (h : i < l.length) :
    l[i]? = some (l.getD i zeroND) := by
  rw [List.getD_eq_getElem?_getD, List.getElem?_eq_getElem h]; rfl

theorem exch_length (pq : MinPQ) (i j : Nat) : (pq.exch i j).keys.length = pq.keys.length := by
  simp [MinPQ.exch]

theorem exch_keys (pq : MinPQ) (i j m : Nat) (hi : i < pq.keys.length) (hj : j < pq.keys.length) :
    (pq.exch i j).keys[m]? =
      if j = m then some (pq.keys.getD i zeroND)
      else if i = m then some (pq.keys.getD j zeroND) else pq.keys[m]? := by
  simp only [MinPQ.exch, List.getElem?_set, List.length_set, hi, hj, if_true]

theorem exch_positions (pq : MinPQ) (i j : Nat) (x : PubKey) :
    mapGet (pq.exch i j).positions x =
      if (pq.keys.getD j zeroND).node = x then some i
      else if (pq.keys.getD i zeroND).node = x then some j else mapGet pq.positions x := by
  simp only [MinPQ.exch, mapGet_mapSet]

theorem PQWF.pos_of_key {pq : MinPQ} (h : PQWF pq) {i : Nat} (h1 : 1 ≤ i)
    (hi : i < pq.keys.length) : mapGet pq.positions (pq.keys.getD i zeroND).node = some i :=
  (h.2 _ i).mpr ⟨h1, _, getElem?_getD_of_lt _ _ hi, rfl⟩

theorem PQWF.lt_of_pos {pq : MinPQ} (h : PQWF pq) {x : PubKey} {i : Nat}
    (hp : mapGet pq.positions x = some i) :
    1 ≤ i ∧ i < pq.keys.length ∧ (pq.keys.getD i zeroND).node = x := by
  obtain ⟨h1, nd, hnd, hx⟩ := (h.2 x i).mp hp
  refine ⟨h1, ?_, ?_⟩
  · exact (List.getElem?_eq_some.mp hnd).1
  · rw [getD_of_getElem? _ _ _ hnd]; exact hx

theorem exch_wf (pq : MinPQ) (i j : Nat) (h : PQWF pq) (hi1 : 1 ≤ i) (hi : i < pq.keys.length)
    (hj1 : 1 ≤ j) (hj : j < pq.keys.length) : PQWF (pq.exch i j) := by
  refine ⟨by rw [exch_length]; exact h.1, ?_⟩
  intro x m
  rw [exch_positions, exch_keys pq i j m hi hj]
  have pi := h.pos_of_key hi1 hi
  have pj := h.pos_of_key hj1 hj
  by_cases hxj : (pq.keys.getD j zeroND).node = x
  · rw [if_pos hxj]
    constructor
    · intro hm
      have hm' : i = m := by simpa using hm
      subst hm'
      refine ⟨hi1, ?_⟩
      by_cases hji : j = i
      · subst hji
        rw [if_pos rfl]; exact ⟨_, rfl, hxj⟩
      · rw [if_neg hji, if_pos rfl]; exact ⟨_, rfl, hxj⟩
    · rintro ⟨hm1, nd, hnd, hx⟩
      by_cases hjm : j = m
      · rw [if_pos hjm] at hnd
        have : nd = pq.keys.getD i zeroND := by simpa using hnd.symm
        subst this
        rw [hx] at pi
        rw [hxj] at pj
        have : i = j := by simpa using pi.symm.trans pj
        rw [this, hjm]
      · rw [if_neg hjm] at hnd
        by_cases him : i = m
        · rw [him]
        · rw [if_neg him] at hnd
          have hp := (h.2 x m).mpr ⟨hm1, nd, hnd, hx⟩
          rw [hxj] at pj
          have : m = j := by simpa using hp.symm.trans pj
          exact absurd this.symm hjm
  · rw [if_neg hxj]
    by_cases hxi : (pq.keys.getD i zeroND).node = x
    · rw [if_pos hxi]
      constructor
      · intro hm
        have hm' : j = m := by simpa using hm
        subst hm'
        exact ⟨hj1, by rw [if_pos rfl]; exact ⟨_, rfl, hxi⟩⟩
      · rintro ⟨hm1, nd, hnd, hx⟩
        by_cases hjm : j = m
        · rw [hjm]
        · rw [if_neg hjm] at hnd
          by_cases him : i = m
          · rw [if_pos him] at hnd
            have : nd = pq.keys.getD j zeroND := by simpa using hnd.symm
            subst this
            exact absurd hx hxj
          · rw [if_neg him] at hnd
            have hp := (h.2 x m).mpr ⟨hm1, nd, hnd, hx⟩
            rw [hxi] at pi
            have : m = i := by simpa using hp.symm.trans pi
            exact absurd this.symm him
    · rw [if_neg hxi]
      constructor
      · intro hp
        obtain ⟨hm1, nd, hnd, hx⟩ := (h.2 x m).mp hp
        refine ⟨hm1, ?_⟩
        by_cases hjm : j = m
        · subst hjm
          rw [getElem?_getD_of_lt _ _ hj] at hnd
          have : nd = pq.keys.getD j zeroND := by simpa using hnd.symm
          subst this
          exact absurd hx hxj
        · rw [if_neg hjm]
          by_cases him : i = m
          · subst him
            rw [getElem?_getD_of_lt _ _ hi] at hnd
            have : nd = pq.keys.getD i zeroND := by simpa using hnd.symm
            subst this
            exact absurd hx hxi
          · rw [if_neg him]; exact ⟨nd, hnd, hx⟩
      · rintro ⟨hm1, nd, hnd, hx⟩
        by_cases hjm : j = m
        · rw [if_pos hjm] at hnd
          have : nd = pq.keys.getD i zeroND := by simpa using hnd.symm
          subst this
          exact absurd hx hxi
        · rw [if_neg hjm] at hnd
          by_cases him : i = m
          · rw [if_pos him] at hnd
            have : nd = pq.keys.getD j zeroND := by simpa using hnd.symm
            subst this
            exact absurd hx hxj
          · rw [if_neg him] at hnd
            exact (h.2 x m).mpr ⟨hm1, nd, hnd, hx⟩

theorem exch_contains (pq : MinPQ) (i j : Nat) (h : PQWF pq) (hi1 : 1 ≤ i)
    (hi : i < pq.keys.length) (hj1 : 1 ≤ j) (hj : j < pq.keys.length) (x : PubKey) :
    (pq.exch i j).contains x = pq.contains x := by
  unfold MinPQ.contains
  rw [exch_positions]
  have pi := h.pos_of_key hi1 hi
  have pj := h.pos_of_key hj1 hj
  by_cases hxj : (pq.keys.getD j zeroND).node = x
  · rw [if_pos hxj, ← hxj, pj]; rfl
  · rw [if_neg hxj]
    by_cases hxi : (pq.keys.getD i zeroND).node = x
    · rw [if_pos hxi, ← hxi, pi]; rfl
    · rw [if_neg hxi]

theorem swimLoop_length (fuel : Nat) : ∀ (pq : MinPQ) (k : Nat),
    (pq.swimLoop fuel k).keys.length = pq.keys.length := by
  induction fuel with
  | zero => intro pq k; rfl
  | succ n ih =>
    intro pq k
    simp only [MinPQ.swimLoop]
    split
    · rw [ih, exch_length]
    · rfl

theorem swimLoop_wf (fuel : Nat) : ∀ (pq : MinPQ) (k : Nat), PQWF pq → k < pq.keys.length →
    PQWF (pq.swimLoop fuel k) := by
  induction fuel with
  | zero => intro pq k h _; exact h
  | succ n ih =>
    intro pq k h hk
    simp only [MinPQ.swimLoop]
    split
    · rename_i hc
      have h2 : 1 ≤ k / 2 := by omega
      have h3 : k / 2 < pq.keys.length := by omega
      exact ih _ _ (exch_wf pq k (k / 2) h (by omega) hk h2 h3) (by rw [exch_length]; exact h3)
    · exact h

theorem swimLoop_contains (fuel : Nat) : ∀ (pq : MinPQ) (k : Nat), PQWF pq →
    k < pq.keys.length → ∀ x, (pq.swimLoop fuel k).contains x = pq.contains x := by
  induction fuel with
  | zero => intro pq k _ _ x; rfl
  | succ n ih =>
    intro pq k h hk x
    simp only [MinPQ.swimLoop]
    split
    · rename_i hc
      have h2 : 1 ≤ k / 2 := by omega
      have h3 : k / 2 < pq.keys.length := by omega
      rw [ih _ _ (exch_wf pq k (k / 2) h (by omega) hk h2 h3) (by rw [exch_length]; exact h3),
        exch_contains pq k (k / 2) h (by omega) hk h2 h3]
    · rfl

theorem insert_length (pq : MinPQ) (x : PubKey) (d : Int) :
    (pq.insert x d).keys.length = pq.keys.length + 1 := by
  simp [MinPQ.insert, MinPQ.swim, swimLoop_length]

/-- The queue right after the two writes of `insert`, before `swim`. -/
theorem insert_pre_wf (pq : MinPQ) (x : PubKey) (d : Int) (h : PQWF pq)
    (hx : pq.contains x = false) :
    PQWF { keys := pq.keys ++ [{ node := x, dist := d }],
           positions := mapSet pq.positions x pq.keys.length } := by
  refine ⟨by simp, ?_⟩
  intro y m
  simp only [mapGet_mapSet, List.getElem?_append]
  have hxn : mapGet pq.positions x = none := by
    unfold MinPQ.contains at hx
    cases hg : mapGet pq.positions x with
    | none => rfl
    | some v => simp [hg] at hx
  by_cases hxy : x = y
  · subst hxy
    rw [if_pos rfl]
    constructor
    · intro hm
      have hm' : pq.keys.length = m := by simpa using hm
      subst hm'
      exact ⟨h.1, by simp⟩
    · rintro ⟨hm1, nd, hnd, hnx⟩
      by_cases hlt : m < pq.keys.length
      · rw [if_pos hlt] at hnd
        have := (h.2 x m).mpr ⟨hm1, nd, hnd, hnx⟩
        rw [hxn] at this
        exact absurd this (by simp)
      · rw [if_neg hlt] at hnd
        have hlen := (List.getElem?_eq_some.mp hnd).1
        simp only [List.length_singleton] at hlen
        have : m = pq.keys.length := by omega
        rw [this]
  · rw [if_neg hxy]
    constructor
    · intro hp
      obtain ⟨hm1, nd, hnd, hny⟩ := (h.2 y m).mp hp
      have hlt := (List.getElem?_eq_some.mp hnd).1
      exact ⟨hm1, nd, by rw [if_pos hlt]; exact hnd, hny⟩
    · rintro ⟨hm1, nd, hnd, hny⟩
      by_cases hlt : m < pq.keys.length
      · rw [if_pos hlt] at hnd
        exact (h.2 y m).mpr ⟨hm1, nd, hnd, hny⟩
      · rw [if_neg hlt] at hnd
        have hlen := (List.getElem?_eq_some.mp hnd).1
        simp only [List.length_singleton] at hlen
        have hm0 : m - pq.keys.length = 0 := by omega
        rw [hm0] at hnd
        simp only [List.getElem?_cons_zero, Option.some.injEq] at hnd
        subst hnd
        exact absurd hny hxy

theorem insert_eq (pq : MinPQ) (x : PubKey) (d : Int) :
    pq.insert x d =
      MinPQ.swimLoop pq.keys.length
        { keys := pq.keys ++ [{ node := x, dist := d }],
          positions := mapSet pq.positions x pq.keys.length } pq.keys.length := by
  simp [MinPQ.insert, MinPQ.swim]

theorem insert_wf (pq : MinPQ) (x : PubKey) (d : Int) (h : PQWF pq)
    (hx : pq.contains x = false) : PQWF (pq.insert x d) := by
  rw [insert_eq]
  exact swimLoop_wf _ _ _ (insert_pre_wf pq x d h hx) (by simp)

theorem insert_contains (pq : MinPQ) (x : PubKey) (d : Int) (h : PQWF pq)
    (hx : pq.contains x = false) (y : PubKey) :
    (pq.insert x d).contains y = (decide (x = y) || pq.contains y) := by
  rw [insert_eq, swimLoop_contains _ _ _ (insert_pre_wf pq x d h hx) (by simp)]
  unfold MinPQ.contains
  simp only [mapGet_mapSet]
  by_cases hxy : x = y <;> simp [hxy]

theorem decreaseKey_length (pq : MinPQ) (x : PubKey) (d : Int) :
    (pq.decreaseKey x d).keys.length = pq.keys.length := by
  unfold MinPQ.decreaseKey
  split <;> simp

theorem decreaseKey_contains (pq : MinPQ) (x : PubKey) (d : Int) (y : PubKey) :
    (pq.decreaseKey x d).contains y = pq.contains y := by
  unfold MinPQ.decreaseKey
  split <;> rfl

theorem decreaseKey_wf (pq : MinPQ) (x : PubKey) (d : Int) (h : PQWF pq) :
    PQWF (pq.decreaseKey x d) := by
  unfold MinPQ.decreaseKey
  split
  · rename_i p hp
    obtain ⟨hp1, hplt, hpx⟩ := h.lt_of_pos hp
    refine ⟨by simpa using h.1, ?_⟩
    intro y m
    simp only [List.getElem?_set, hplt, if_true]
    rw [h.2 y m]
    by_cases hpm : p = m
    · subst hpm
      simp only [if_true]
      constructor
      · rintro ⟨hm1, nd, hnd, hny⟩
        rw [getElem?_getD_of_lt _ _ hplt] at hnd
        have : nd = pq.keys.getD p zeroND := by simpa using hnd.symm
        subst this
        exact ⟨hm1, _, rfl, hny⟩
      · rintro ⟨hm1, nd, hnd, hny⟩
        have : nd = { pq.keys.getD p zeroND with dist := d } := by simpa using hnd.symm
        subst this
        exact ⟨hm1, _, getElem?_getD_of_lt _ _ hplt, hny⟩
    · simp only [if_neg hpm]
  · exact h

theorem isEmpty_iff (pq : MinPQ) : pq.isEmpty = true ↔ pq.keys.length = 1 := by
  simp [MinPQ.isEmpty]

theorem delMin_eq (pq : MinPQ) (hne : pq.isEmpty = false) :
    pq.delMin = ((pq.keys.getD 1 zeroND).node,
      { keys := (pq.exch 1 (pq.keys.length - 1)).keys.take (pq.keys.length - 1),
        positions := mapDel (pq.exch 1 (pq.keys.length - 1)).positions
          (pq.keys.getD 1 zeroND).node }) := by
  simp [MinPQ.delMin, hne]

theorem delMin_length (pq : MinPQ) (h1 : 1 ≤ pq.keys.length) (hne : pq.isEmpty = false) :
    pq.delMin.2.keys.length + 1 = pq.keys.length ∧ 2 ≤ pq.keys.length := by
  rw [delMin_eq pq hne]
  have h2 : pq.keys.length ≠ 1 := by
    intro h3
    rw [(isEmpty_iff pq).mpr h3] at hne
    exact absurd hne (by simp)
  simp only [List.length_take, exch_length]
  omega

theorem delMin_length_le (pq : MinPQ) : pq.delMin.2.keys.length ≤ pq.keys.length := by
  unfold MinPQ.delMin
  split
  · exact Nat.le_refl _
  · simp only [List.length_take, exch_length]
    omega

theorem two_le_length_of_not_isEmpty (pq : MinPQ) (h : PQWF pq) (hne : pq.isEmpty = false) :
    2 ≤ pq.keys.length := by
  have h1 := h.1
  have h2 : pq.keys.length ≠ 1 := by
    intro h3
    rw [(isEmpty_iff pq).mpr h3] at hne
    exact absurd hne (by simp)
  omega

theorem delMin_contains_fst (pq : MinPQ) (h : PQWF pq) (hne : pq.isEmpty = false) :
    pq.contains pq.delMin.1 = true := by
  rw [delMin_eq pq hne]
  have h2 := two_le_length_of_not_isEmpty pq h hne
  unfold MinPQ.contains
  rw [h.pos_of_key (Nat.le_refl 1) (by omega)]
  rfl

theorem delMin_wf_contains (pq : MinPQ) (h : PQWF pq) (hne : pq.isEmpty = false) :
    PQWF pq.delMin.2 ∧
      ∀ y, pq.delMin.2.contains y = (pq.contains y && decide (y ≠ pq.delMin.1)) := by
  have h2 := two_le_length_of_not_isEmpty pq h hne
  have hn1 : 1 ≤ pq.keys.length - 1 := by omega
  have hn : pq.keys.length - 1 < pq.keys.length := by omega
  have h1lt : 1 < pq.keys.length := by omega
  have hw := exch_wf pq 1 (pq.keys.length - 1) h (Nat.le_refl 1) h1lt hn1 hn
  have hc := exch_contains pq 1 (pq.keys.length - 1) h (Nat.le_refl 1) h1lt hn1 hn
  -- the extracted entry sits at the last index after the exchange
  have hlast : (pq.exch 1 (pq.keys.length - 1)).keys[pq.keys.length - 1]? =
      some (pq.keys.getD 1 zeroND) := by
    rw [exch_keys pq 1 (pq.keys.length - 1) _ h1lt hn, if_pos rfl]
  have hposmin : mapGet (pq.exch 1 (pq.keys.length - 1)).positions
      (pq.keys.getD 1 zeroND).node = some (pq.keys.length - 1) :=
    (hw.2 _ _).mpr ⟨hn1, _, hlast, rfl⟩
  rw [delMin_eq pq hne]
  constructor
  · refine ⟨?_, ?_⟩
    · simp only [List.length_take, exch_length]; omega
    · intro y m
      simp only [mapGet_mapDel, List.getElem?_take]
      by_cases hy : (pq.keys.getD 1 zeroND).node = y
      · rw [if_pos hy]
        constructor
        · intro hc; exact absurd hc (by simp)
        · rintro ⟨hm1, nd, hnd, hny⟩
          exfalso
          by_cases hlt : m < pq.keys.length - 1
          · rw [if_pos hlt] at hnd
            have hp := (hw.2 y m).mpr ⟨hm1, nd, hnd, hny⟩
            rw [← hy, hposmin] at hp
            have : pq.keys.length - 1 = m := by simpa using hp
            omega
          · rw [if_neg hlt] at hnd
            exact absurd hnd (by simp)
      · rw [if_neg hy, hw.2 y m]
        constructor
        · rintro ⟨hm1, nd, hnd, hny⟩
          have hlt0 : m < pq.keys.length := by
            have := (List.getElem?_eq_some.mp hnd).1
            rwa [exch_length] at this
          have hlt : m < pq.keys.length - 1 := by
            by_contra hge
            have hm : m = pq.keys.length - 1 := by omega
            rw [hm, hlast] at hnd
            have : nd = pq.keys.getD 1 zeroND := by simpa using hnd.symm
            subst this
            exact hy hny
          exact ⟨hm1, nd, by rw [if_pos hlt]; exact hnd, hny⟩
        · rintro ⟨hm1, nd, hnd, hny⟩
          by_cases hlt : m < pq.keys.length - 1
          · rw [if_pos hlt] at hnd
            exact ⟨hm1, nd, hnd, hny⟩
          · rw [if_neg hlt] at hnd
            exact absurd hnd (by simp)
  · intro y
    have hcy := hc y
    unfold MinPQ.contains at hcy ⊢
    simp only [mapGet_mapDel]
    by_cases hy : (pq.keys.getD 1 zeroND).node = y
    · rw [if_pos hy]
      have hd : decide (y ≠ (pq.keys.getD 1 zeroND).node) = false :=
        decide_eq_false (fun hne => hne hy.symm)
      rw [hd, Bool.and_false]
      rfl
    · rw [if_neg hy, hcy]
      have hd : decide (y ≠ (pq.keys.getD 1 zeroND).node) = true :=
        decide_eq_true (fun h => hy h.symm)
      rw [hd, Bool.and_true]

theorem not_contains_of_isEmpty (pq : MinPQ) (h : PQWF pq) (he : pq.isEmpty = true)
    (y : PubKey) : pq.contains y = false := by
  unfold MinPQ.contains
  cases hg : mapGet pq.positions y with
  | none => rfl
  | some i =>
    obtain ⟨h1, h2, _⟩ := h.lt_of_pos hg
    rw [(isEmpty_iff pq).mp he] at h2
    omega

theorem newPQ_wf : PQWF newPQ := by
  refine ⟨by simp [newPQ], ?_⟩
  intro x i
  simp only [newPQ, mapGet]
  constructor
  · intro h; exact absurd h (by simp)
  · rintro ⟨h1, nd, hnd, _⟩
    have := (List.getElem?_eq_some.mp hnd).1
    simp only [List.length_singleton] at this
    omega

theorem newPQ_contains (y : PubKey) : newPQ.contains y = false := rfl

/-! ## Machine integers -/

theorem wrapInt_bounds (x : Int) : -2 ^ 63 ≤ wrapInt x ∧ wrapInt x < 2 ^ 63 := by
  unfold wrapInt
  omega

theorem wrapInt_eq_self (x : Int) (h1 : -2 ^ 63 ≤ x) (h2 : x < 2 ^ 63) : wrapInt x = x := by
  unfold wrapInt
  omega

/-! ## One call of `relax` -/

theorem dist_mk_mapSet (src : PubKey) (d : List (PubKey × Int)) (ed : List (PubKey × DirectRoute))
    (pq : MinPQ) (k : PubKey) (v : Int) : SP.dist ⟨src, mapSet d k v, ed, pq⟩ k = v := by
  simp [SP.dist, mapGet_mapSet]

/-- The two outcomes of `relax`: nothing changes, or the distance of `edge.to` drops to the
candidate, `edgeTo` records the edge, and the node is in the queue afterwards. -/
theorem relax_cases (s : SP) (e : DirectRoute) :
    (¬ s.dist e.to_ > wrapInt (s.dist e.from_ + e.weight) ∧ s.relax e = s) ∨
    (s.dist e.to_ > wrapInt (s.dist e.from_ + e.weight) ∧
      (s.relax e).source = s.source ∧
      (s.relax e).distTo = mapSet s.distTo e.to_ (wrapInt (s.dist e.from_ + e.weight)) ∧
      (s.relax e).edgeTo = mapSet s.edgeTo e.to_ e ∧
      ((s.pq.contains e.to_ = true ∧
          (s.relax e).pq = s.pq.decreaseKey e.to_ (wrapInt (s.dist e.from_ + e.weight))) ∨
        (s.pq.contains e.to_ = false ∧
          (s.relax e).pq = s.pq.insert e.to_ (wrapInt (s.dist e.from_ + e.weight))))) := by
  by_cases h : s.dist e.to_ > wrapInt (s.dist e.from_ + e.weight)
  · right
    refine ⟨h, ?_⟩
    by_cases hc : s.pq.contains e.to_ = true
    · simp [SP.relax, h, hc, dist_mk_mapSet]
    · have hc' : s.pq.contains e.to_ = false := by simpa using hc
      simp [SP.relax, h, hc', dist_mk_mapSet]
  · left
    exact ⟨h, by simp only [SP.relax, h, if_false]⟩

theorem relax_source (s : SP) (e : DirectRoute) : (s.relax e).source = s.source := by
  rcases relax_cases s e with h | h
  · rw [h.2]
  · exact h.2.1

theorem dist_of_distTo (s : SP) (k : PubKey) (v : Int) (x : PubKey)
    (s' : SP) (h : s'.distTo = mapSet s.distTo k v) :
    s'.dist x = if k = x then v else s.dist x := by
  unfold SP.dist
  rw [h, mapGet_mapSet]
  split <;> rfl

/-! ## Termination of the extraction loop -/

theorem mem_targets_of_mem_routesOf (g : RouteGraph) (v : PubKey) (e : DirectRoute)
    (h : e ∈ g.routesOf v) : e.to_ ∈ g.targets := by
  unfold RouteGraph.routesOf at h
  cases hm : mapGet g.nodes v with
  | none => simp [hm] at h
  | some routes =>
    simp only [hm, Option.getD_some, List.mem_map] at h
    obtain ⟨te, hte, rfl⟩ := h
    unfold RouteGraph.targets
    simp only [List.mem_toFinset, List.mem_flatMap, List.mem_map]
    exact ⟨(v, routes), mem_of_mapGet _ _ _ hm, te, hte, rfl⟩

theorem relax_dist (s : SP) (e : DirectRoute)
    (h : s.dist e.to_ > wrapInt (s.dist e.from_ + e.weight)) (x : PubKey) :
    (s.relax e).dist x =
      if e.to_ = x then wrapInt (s.dist e.from_ + e.weight) else s.dist x := by
  rcases relax_cases s e with hc | hc
  · exact absurd h hc.1
  · exact dist_of_distTo s _ _ x _ hc.2.2.1

theorem relax_measure (g : RouteGraph) (s : SP) (e : DirectRoute)
    (hlb : ∀ x, -2 ^ 63 ≤ s.dist x) (hl : 1 ≤ s.pq.keys.length) (he : e.to_ ∈ g.targets) :
    (∀ x, -2 ^ 63 ≤ (s.relax e).dist x) ∧ 1 ≤ (s.relax e).pq.keys.length ∧
      spMeasure g (s.relax e) ≤ spMeasure g s := by
  rcases relax_cases s e with hc | hc
  · rw [hc.2]
    exact ⟨hlb, hl, le_refl _⟩
  · obtain ⟨hgt, _, _, _, hpq⟩ := hc
    have hd := relax_dist s e hgt
    have hlen : (s.relax e).pq.keys.length ≤ s.pq.keys.length + 1 ∧
        1 ≤ (s.relax e).pq.keys.length := by
      rcases hpq with ⟨_, hp⟩ | ⟨_, hp⟩
      · rw [hp, decreaseKey_length]; omega
      · rw [hp, insert_length]; omega
    refine ⟨?_, hlen.2, ?_⟩
    · intro x
      rw [hd x]
      split
      · exact (wrapInt_bounds _).1
      · exact hlb x
    · unfold spMeasure
      have hsum : Finset.sum g.targets (fun x => (s.relax e).dist x + 2 ^ 63) <
          Finset.sum g.targets (fun x => s.dist x + 2 ^ 63) := by
        apply Finset.sum_lt_sum
        · intro i _
          rw [hd i]
          split
          · rename_i hi
            subst hi
            omega
          · exact le_refl _
        · refine ⟨e.to_, he, ?_⟩
          rw [hd e.to_, if_pos rfl]
          omega
      have h1 : ((s.relax e).pq.keys.length : Int) ≤ (s.pq.keys.length : Int) + 1 := by
        exact_mod_cast hlen.1
      omega

theorem foldl_relax_measure (g : RouteGraph) (l : List DirectRoute) :
    ∀ (s : SP), (∀ x, -2 ^ 63 ≤ s.dist x) → 1 ≤ s.pq.keys.length →
      (∀ e ∈ l, e.to_ ∈ g.targets) →
      (∀ x, -2 ^ 63 ≤ (l.foldl SP.relax s).dist x) ∧ 1 ≤ (l.foldl SP.relax s).pq.keys.length ∧
        spMeasure g (l.foldl SP.relax s) ≤ spMeasure g s := by
  induction l with
  | nil => intro s hlb hl _; exact ⟨hlb, hl, le_refl _⟩
  | cons e t ih =>
    intro s hlb hl hmem
    obtain ⟨h1, h2, h3⟩ := relax_measure g s e hlb hl (hmem e (List.mem_cons_self _ _))
    obtain ⟨h4, h5, h6⟩ := ih (s.relax e) h1 h2 (fun e' he' => hmem e' (List.mem_cons_of_mem _ he'))
    exact ⟨h4, h5, le_trans h6 h3⟩

theorem spMeasure_nonneg (g : RouteGraph) (s : SP) (hlb : ∀ x, -2 ^ 63 ≤ s.dist x) :
    0 ≤ spMeasure g s := by
  unfold spMeasure
  have : 0 ≤ Finset.sum g.targets (fun x => s.dist x + 2 ^ 63) := by
    apply Finset.sum_nonneg
    intro i _
    have := hlb i
    omega
  omega

theorem mem_order_iff (ord : RangeOrder) (k : Nat) (l : List DirectRoute) (e : DirectRoute) :
    e ∈ ord.order k l ↔ e ∈ l :=
  (ord.perm k l).mem_iff

theorem spLoop_terminates (ord : RangeOrder) (g : RouteGraph) (fuel : Nat) :
    ∀ (step : Nat) (s : SP), (∀ x, -2 ^ 63 ≤ s.dist x) → 1 ≤ s.pq.keys.length →
      spMeasure g s < (fuel : Int) → (spLoop ord g fuel step s).isSome = true := by
  induction fuel with
  | zero =>
    intro step s hlb _ hm
    have := spMeasure_nonneg g s hlb
    simp at hm
    omega
  | succ n ih =>
    intro step s hlb hl hm
    simp only [spLoop]
    split
    · rfl
    · rename_i hne
      have hne' : s.pq.isEmpty = false := by simpa using hne
      have hdl := delMin_length s.pq hl hne'
      have hlb1 : ∀ x, -2 ^ 63 ≤ SP.dist { s with pq := s.pq.delMin.2 } x := hlb
      have hl1 : 1 ≤ (SP.pq { s with pq := s.pq.delMin.2 }).keys.length := by
        show 1 ≤ s.pq.delMin.2.keys.length
        omega
      have hm1 : spMeasure g { s with pq := s.pq.delMin.2 } + 1 = spMeasure g s := by
        unfold spMeasure
        show 2 * Finset.sum g.targets (fun x => s.dist x + 2 ^ 63) +
          (s.pq.delMin.2.keys.length : Int) + 1 = _
        have : (s.pq.delMin.2.keys.length : Int) + 1 = (s.pq.keys.length : Int) := by
          exact_mod_cast hdl.1
        omega
      obtain ⟨h4, h5, h6⟩ := foldl_relax_measure g
        (ord.order step (g.routesOf s.pq.delMin.1)) _ hlb1 hl1
        (fun e he => mem_targets_of_mem_routesOf g _ e ((mem_order_iff ord _ _ e).mp he))
      apply ih _ _ h4 h5
      push_cast at hm
      omega

theorem spLoop_mono (ord : RangeOrder) (g : RouteGraph) (fuel : Nat) :
    ∀ (step : Nat) (s r : SP), spLoop ord g fuel step s = some r →
      ∀ k, spLoop ord g (fuel + k) step s = some r := by
  induction fuel with
  | zero => intro step s r h; simp [spLoop] at h
  | succ n ih =>
    intro step s r h k
    have hk : n + 1 + k = (n + k) + 1 := by omega
    rw [hk]
    simp only [spLoop] at h ⊢
    split
    · rename_i he
      simpa [he] using h
    · rename_i he
      simp only [he] at h
      exact ih _ _ _ h k

/-! ## The state `newSP` starts from -/

theorem mapGet_initDist (nodes : List (PubKey × List (PubKey × DirectRoute))) :
    ∀ (acc : List (PubKey × Int)) (x : PubKey),
      mapGet (nodes.foldl (fun d kv => mapSet d kv.1 MaxInt32) acc) x =
        if x ∈ nodes.map Prod.fst then some MaxInt32 else mapGet acc x := by
  induction nodes with
  | nil => intro acc x; simp
  | cons hd tl ih =>
    intro acc x
    simp only [List.foldl_cons, ih, mapGet_mapSet, List.map_cons, List.mem_cons]
    by_cases h1 : x ∈ tl.map Prod.fst
    · simp [h1]
    · by_cases h2 : hd.1 = x
      · simp [h2]
      · have h3 : ¬ x = hd.1 := fun h => h2 h.symm
        simp [h1, h2, h3]

theorem spInit_dist (g : RouteGraph) (src x : PubKey) :
    (spInit g src).dist x =
      if src = x then 0 else if x ∈ g.nodes.map Prod.fst then MaxInt32 else 0 := by
  simp only [spInit, SP.dist, mapGet_mapSet, mapGet_initDist]
  by_cases h1 : src = x
  · simp [h1]
  · by_cases h2 : x ∈ g.nodes.map Prod.fst
    · simp only [h1, h2, if_true, if_false]; rfl
    · simp only [h1, h2, if_false]; rfl

theorem spInit_source (g : RouteGraph) (src : PubKey) : (spInit g src).source = src := rfl

theorem spInit_edgeTo (g : RouteGraph) (src : PubKey) : (spInit g src).edgeTo = [] := rfl

theorem spInit_pq (g : RouteGraph) (src : PubKey) : (spInit g src).pq = newPQ.insert src 0 := rfl

theorem spInit_wf (g : RouteGraph) (src : PubKey) : PQWF (spInit g src).pq := by
  rw [spInit_pq]
  exact insert_wf newPQ src 0 newPQ_wf (newPQ_contains src)

theorem spInit_contains (g : RouteGraph) (src x : PubKey) :
    (spInit g src).pq.contains x = decide (src = x) := by
  rw [spInit_pq, insert_contains newPQ src 0 newPQ_wf (newPQ_contains src), newPQ_contains]
  simp

theorem spInit_lower (g : RouteGraph) (src x : PubKey) : -2 ^ 63 ≤ (spInit g src).dist x := by
  rw [spInit_dist]
  unfold MaxInt32
  split
  · omega
  · split <;> omega

/-- The extraction loop of `newSP` ends for every graph state: more fuel than the measure of
the starting state is enough. -/
theorem newSP_terminates (ord : RangeOrder) (g : RouteGraph) (src : PubKey) (fuel : Nat)
    (h : spMeasure g (spInit g src) < (fuel : Int)) : (newSP ord fuel g src).isSome = true := by
  unfold newSP
  apply spLoop_terminates ord g fuel 0 _ (spInit_lower g src) _ h
  rw [spInit_pq, insert_length]
  omega

/-- A fuel, the same for every iteration order, from which on `newSP` returns. -/
theorem newSP_total (g : RouteGraph) (src : PubKey) :
    ∃ N : Nat, ∀ (ord : RangeOrder) (fuel : Nat), N ≤ fuel → (newSP ord fuel g src).isSome = true := by
  refine ⟨(spMeasure g (spInit g src)).toNat + 1, ?_⟩
  intro ord fuel hle
  apply newSP_terminates
  have := Int.self_le_toNat (spMeasure g (spInit g src))
  have h2 : ((spMeasure g (spInit g src)).toNat : Int) + 1 ≤ (fuel : Int) := by exact_mod_cast hle
  omega

/-! ## Induction along the extraction loop -/

theorem foldl_relax_induct (P : List DirectRoute → SP → Prop)
    (hrel : ∀ s e l, P (e :: l) s → P l (s.relax e)) :
    ∀ (l : List DirectRoute) (s : SP), P l s → P [] (l.foldl SP.relax s) := by
  intro l
  induction l with
  | nil => intro s h; exact h
  | cons e t ih => intro s h; exact ih _ (hrel s e t h)

theorem spLoop_induct (ord : RangeOrder) (g : RouteGraph) (P : List DirectRoute → SP → Prop)
    (hdel : ∀ s l, P [] s → s.pq.isEmpty = false → (∀ e, e ∈ l ↔ e ∈ g.routesOf s.pq.delMin.1) →
      P l { s with pq := s.pq.delMin.2 })
    (hrel : ∀ s e l, P (e :: l) s → P l (s.relax e)) (fuel : Nat) :
    ∀ (step : Nat) (s r : SP), P [] s → spLoop ord g fuel step s = some r →
      P [] r ∧ r.pq.isEmpty = true := by
  induction fuel with
  | zero => intro step s r _ h; simp [spLoop] at h
  | succ n ih =>
    intro step s r hP h
    simp only [spLoop] at h
    split at h
    · rename_i he
      have : s = r := by simpa using h
      subst this
      exact ⟨hP, he⟩
    · rename_i he
      have he' : s.pq.isEmpty = false := by simpa using he
      apply ih _ _ _ _ h
      apply foldl_relax_induct P hrel
      exact hdel s _ hP he' (fun e => mem_order_iff ord _ _ e)

/-! ## The invariant that holds for every weight -/

theorem spInv_init (g : RouteGraph) (src : PubKey) : SPInv g src [] (spInit g src) where
  wf := spInit_wf g src
  source_eq := rfl
  edge := by
    intro x e h
    simp [spInit_edgeTo, mapGet] at h
  queued := by
    intro x h
    rw [spInit_contains] at h
    have : src = x := by simpa using h
    subst this
    exact ⟨0, Walk.refl⟩
  pend := by
    intro e h
    simp at h

theorem spInv_delMin (g : RouteGraph) (hg : GraphOK g) (src : PubKey) (s : SP)
    (l : List DirectRoute) (h : SPInv g src [] s) (hne : s.pq.isEmpty = false)
    (hl : ∀ e, e ∈ l ↔ e ∈ g.routesOf s.pq.delMin.1) :
    SPInv g src l { s with pq := s.pq.delMin.2 } where
  wf := (delMin_wf_contains s.pq h.wf hne).1
  source_eq := h.source_eq
  edge := h.edge
  queued := by
    intro x hx
    have hc := (delMin_wf_contains s.pq h.wf hne).2 x
    have hx' : s.pq.delMin.2.contains x = true := hx
    rw [hc] at hx'
    simp only [Bool.and_eq_true] at hx'
    exact h.queued x hx'.1
  pend := by
    intro e he
    have h1 := (hl e).mp he
    have h2 := (route_of_mem_routesOf hg h1).1
    rw [h2]
    exact ⟨h1, h.queued _ (delMin_contains_fst s.pq h.wf hne)⟩

theorem spInv_relax (g : RouteGraph) (hg : GraphOK g) (src : PubKey) (s : SP)
    (e : DirectRoute) (l : List DirectRoute) (h : SPInv g src (e :: l) s) :
    SPInv g src l (s.relax e) := by
  have hpl : ∀ e', e' ∈ l → e' ∈ g.routesOf e'.from_ ∧ ∃ d, Walk g src e'.from_ d :=
    fun e' he' => h.pend e' (List.mem_cons_of_mem _ he')
  rcases relax_cases s e with hc | hc
  · rw [hc.2]
    exact ⟨h.wf, h.source_eq, h.edge, h.queued, hpl⟩
  · obtain ⟨_, hsrc, _, hedge, hpq⟩ := hc
    obtain ⟨hmem, d, hwalk⟩ := h.pend e (List.mem_cons_self _ _)
    have hroute := (route_of_mem_routesOf hg hmem).2.2.2
    have hwalk' : ∃ d', Walk g src e.to_ d' := ⟨_, Walk.step _ _ d e hwalk hroute⟩
    refine ⟨?_, ?_, ?_, ?_, hpl⟩
    · rcases hpq with ⟨_, hp⟩ | ⟨hn, hp⟩
      · rw [hp]; exact decreaseKey_wf _ _ _ h.wf
      · rw [hp]; exact insert_wf _ _ _ h.wf hn
    · rw [hsrc]; exact h.source_eq
    · intro x e' hx
      rw [hedge, mapGet_mapSet] at hx
      by_cases hx2 : e.to_ = x
      · rw [if_pos hx2] at hx
        have : e = e' := by simpa using hx
        subst this
        exact ⟨hx2, hx2 ▸ hroute, d, hwalk⟩
      · rw [if_neg hx2] at hx
        exact h.edge x e' hx
    · intro x hx
      rcases hpq with ⟨_, hp⟩ | ⟨hn, hp⟩
      · rw [hp, decreaseKey_contains] at hx
        exact h.queued x hx
      · rw [hp, insert_contains _ _ _ h.wf hn] at hx
        simp only [Bool.or_eq_true, decide_eq_true_eq] at hx
        rcases hx with hx | hx
        · rw [← hx]; exact hwalk'
        · exact h.queued x hx

/-- Every tree `newSP` returns satisfies the general invariant and has an empty queue. -/
theorem newSP_inv (ord : RangeOrder) (g : RouteGraph) (hg : GraphOK g) (src : PubKey)
    (fuel : Nat) (sp : SP) (h : newSP ord fuel g src = some sp) :
    SPInv g src [] sp ∧ sp.pq.isEmpty = true :=
  spLoop_induct ord g (SPInv g src)
    (fun s l hs hne hl => spInv_delMin g hg src s l hs hne hl)
    (fun s e l hs => spInv_relax g hg src s e l hs) fuel 0 _ sp (spInv_init g src) h

/-! ## Paths and walks -/

theorem isPath_single (g : RouteGraph) (a : PubKey) : g.IsPath a a [a] :=
  ⟨rfl, rfl, List.chain'_singleton a⟩

theorem isPath_cons (g : RouteGraph) (a c b : PubKey) (q : List PubKey)
    (hr : (g.route a c).isSome = true) (hq : g.IsPath c b q) : g.IsPath a b (a :: q) := by
  obtain ⟨h1, h2, h3⟩ := hq
  cases q with
  | nil => simp at h1
  | cons x t =>
    have hx : x = c := by simpa using h1
    subst hx
    refine ⟨rfl, ?_, ?_⟩
    · rw [List.getLast?_cons_cons]; exact h2
    · exact List.chain'_cons.mpr ⟨hr, h3⟩

theorem isPath_cases (g : RouteGraph) (a b : PubKey) (p : List PubKey) (h : g.IsPath a b p) :
    (p = [a] ∧ a = b) ∨
      ∃ c q, p = a :: q ∧ (g.route a c).isSome = true ∧ g.IsPath c b q := by
  obtain ⟨h1, h2, h3⟩ := h
  cases p with
  | nil => simp at h1
  | cons x t =>
    have hx : x = a := by simpa using h1
    subst hx
    cases t with
    | nil =>
      left
      exact ⟨rfl, by simpa using h2⟩
    | cons y t' =>
      right
      rw [List.getLast?_cons_cons] at h2
      rw [List.chain'_cons] at h3
      exact ⟨y, y :: t', rfl, h3.1, rfl, h2, h3.2⟩

theorem pathWeight_cons (g : RouteGraph) (a c : PubKey) (t : List PubKey) (e : DirectRoute)
    (h : g.route a c = some e) :
    g.pathWeight (a :: c :: t) = e.weight + g.pathWeight (c :: t) := by
  simp [RouteGraph.pathWeight, h]

theorem Walk.head {g : RouteGraph} {a b c : PubKey} {d : Int} {e : DirectRoute}
    (hr : g.route a b = some e) (hw : Walk g b c d) : Walk g a c (e.weight + d) := by
  induction hw with
  | refl =>
    have := Walk.step a b 0 e Walk.refl hr
    simpa [add_comm] using this
  | step x y d' e' _ hxy ih =>
    have := Walk.step x y _ e' ih hxy
    simpa [add_assoc] using this

theorem Walk.nonneg {g : RouteGraph} (hg : GraphOK g) {a b : PubKey} {d : Int}
    (hw : Walk g a b d) : 0 ≤ d := by
  induction hw with
  | refl => exact le_refl _
  | step x y d' e' _ hxy ih =>
    have := (mem_routesOf_of_route hg hxy).2.2.2.2
    omega

/-- A path, as a list of nodes, is a walk of the weight of the path. -/
theorem walk_of_isPath (g : RouteGraph) (p : List PubKey) :
    ∀ (a b : PubKey), g.IsPath a b p → Walk g a b (g.pathWeight p) := by
  induction p with
  | nil => intro a b h; simp [RouteGraph.IsPath] at h
  | cons x t ih =>
    intro a b h
    rcases isPath_cases g a b _ h with ⟨hp, hab⟩ | ⟨c, q, hp, hr, hq⟩
    · rw [hp, ← hab]
      exact Walk.refl
    · have hq' : q = t := by
        have := List.cons.inj hp
        exact this.2.symm
      subst hq'
      have hx : x = a := (List.cons.inj hp).1
      subst hx
      obtain ⟨e, he⟩ := Option.isSome_iff_exists.mp hr
      have hw := ih c b hq
      obtain ⟨h1, _, _⟩ := hq
      cases q with
      | nil => simp at h1
      | cons y t' =>
        have hy : y = c := by simpa using h1
        subst hy
        rw [pathWeight_cons g x y t' e he]
        exact Walk.head he hw

theorem isPath_snoc (g : RouteGraph) (a b c : PubKey) (q : List PubKey)
    (hq : g.IsPath a b q) (hr : (g.route b c).isSome = true) : g.IsPath a c (q ++ [c]) := by
  obtain ⟨h1, h2, h3⟩ := hq
  refine ⟨?_, List.getLast?_concat q, ?_⟩
  · rw [List.head?_append, h1]; rfl
  · apply List.Chain'.append h3 (List.chain'_singleton c)
    intro x hx y hy
    rw [h2] at hx
    have hx' : b = x := by simpa using hx
    have hy' : c = y := by simpa using hy
    subst hx'; subst hy'
    exact hr

theorem pathWeight_snoc (g : RouteGraph) (q : List PubKey) :
    ∀ (a b c : PubKey) (e : DirectRoute), g.IsPath a b q → g.route b c = some e →
      g.pathWeight (q ++ [c]) = g.pathWeight q + e.weight := by
  induction q with
  | nil => intro a b c e h; simp [RouteGraph.IsPath] at h
  | cons x t ih =>
    intro a b c e h hr
    rcases isPath_cases g a b _ h with ⟨hp, hab⟩ | ⟨c', q, hp, hr', hq⟩
    · have hx : x = a := (List.cons.inj hp).1
      have ht : t = [] := (List.cons.inj hp).2
      subst hx; subst ht; subst hab
      simp [RouteGraph.pathWeight, hr]
    · have hq' : q = t := (List.cons.inj hp).2.symm
      subst hq'
      have h2 := ih c' b c e hq hr
      obtain ⟨h1, _, _⟩ := hq
      cases q with
      | nil => simp at h1
      | cons y t' =>
        simp only [List.cons_append] at h2 ⊢
        have h3 : g.pathWeight (x :: y :: (t' ++ [c])) =
            ((g.route x y).map DirectRoute.weight).getD 0 + g.pathWeight (y :: (t' ++ [c])) := rfl
        have h4 : g.pathWeight (x :: y :: t') =
            ((g.route x y).map DirectRoute.weight).getD 0 + g.pathWeight (y :: t') := rfl
        rw [h3, h4, h2]
        ring

/-- A walk runs along a path, as a list of nodes, of the weight of the walk. -/
theorem isPath_of_walk (g : RouteGraph) (a b : PubKey) (d : Int) (hw : Walk g a b d) :
    ∃ q, g.IsPath a b q ∧ g.pathWeight q = d := by
  induction hw with
  | refl => exact ⟨[a], isPath_single g a, rfl⟩
  | step x y d' e _ hxy ih =>
    obtain ⟨q, hq, hqw⟩ := ih
    refine ⟨q ++ [y], isPath_snoc g a x y q hq (by rw [hxy]; rfl), ?_⟩
    rw [pathWeight_snoc g q a x y e hq hxy, hqw]

/-! ## Path reconstruction -/

theorem pathToLoop_isPath (g : RouteGraph) (sp : SP)
    (hedge : ∀ x e, mapGet sp.edgeTo x = some e → e.to_ = x ∧ g.route e.from_ x = some e)
    (fuel : Nat) :
    ∀ (acc : List PubKey) (cur t : PubKey) (p : List PubKey), g.IsPath cur t acc.reverse →
      sp.pathToLoop fuel acc (mapGet sp.edgeTo cur) = some (p, none) →
      g.IsPath sp.source t p := by
  induction fuel with
  | zero => intro acc cur t p _ h; simp [SP.pathToLoop] at h
  | succ n ih =>
    intro acc cur t p hacc h
    cases he : mapGet sp.edgeTo cur with
    | none => simp [he, SP.pathToLoop] at h
    | some e =>
      obtain ⟨_, hroute⟩ := hedge cur e he
      have hnext : g.IsPath e.from_ t (acc ++ [e.from_]).reverse := by
        rw [List.reverse_append]
        exact isPath_cons g e.from_ cur t _ (by rw [hroute]; rfl) hacc
      rw [he] at h
      simp only [SP.pathToLoop] at h
      split at h
      · rename_i hs
        have hp : (acc ++ [e.from_]).reverse = p := by simpa [reverseSlice_eq] using h
        rw [← hp, ← hs]
        exact hnext
      · exact ih _ _ _ _ hnext h

theorem pathTo_isPath (g : RouteGraph) (sp : SP)
    (hedge : ∀ x e, mapGet sp.edgeTo x = some e → e.to_ = x ∧ g.route e.from_ x = some e)
    (fuel : Nat) (t : PubKey) (p : List PubKey) (h : sp.pathTo fuel t = some (p, none)) :
    g.IsPath sp.source t p :=
  pathToLoop_isPath g sp hedge fuel [t] t t p (isPath_single g t) h

theorem pathTo_no_edge (sp : SP) (fuel : Nat) (t : PubKey) (h : mapGet sp.edgeTo t = none) :
    sp.pathTo (fuel + 1) t = some ([], some RouteError.ERR_NO_ROUTE) := by
  simp [SP.pathTo, h, SP.pathToLoop]

/-- On a graph built by `addDirectRoute` calls no tree is cached, so `findRoute` builds the
tree of `from` and answers from it. -/
theorem findRoute_built (g : RouteGraph) (hb : Built g) (ord : RangeOrder) (fuel : Nat)
    (f t : PubKey) (g1 : RouteGraph) (r : List PubKey × Option RouteError)
    (h : g.findRoute ord fuel f t = some (g1, r)) :
    ∃ sp, newSP ord fuel g f = some sp ∧ sp.pathTo fuel t = some r := by
  obtain ⟨sp, _, hp, _, hc | hc⟩ := findRoute_some g ord fuel f t g1 r h
  · rw [hb.paths_nil] at hc
    simp [mapGet] at hc
  · exact ⟨sp, hc.2.1, hp⟩

/-- C2: on every graph built from `newGraph()` by `addDirectRoute` calls (so no tree is
cached), a path `p` that `findRoute(from, to)` returns without error starts at `from`, ends
at `to`, and each of its consecutive pairs is a stored direct route. -/
theorem findRoute_path_is_stored (g : RouteGraph) (hb : Built g) (ord : RangeOrder)
    (fuel : Nat) (from_ to_ : PubKey) (g1 : RouteGraph) (p : List PubKey)
    (h : g.findRoute ord fuel from_ to_ = some (g1, (p, none))) :
    p.head? = some from_ ∧ p.getLast? = some to_ ∧
      List.Chain' (fun x y => (g.route x y).isSome = true) p := by
  obtain ⟨sp, hsp, hp⟩ := findRoute_built g hb ord fuel from_ to_ g1 _ h
  obtain ⟨hinv, _⟩ := newSP_inv ord g hb.graphOK from_ fuel sp hsp
  have := pathTo_isPath g sp (fun x e hx => ⟨(hinv.edge x e hx).1, (hinv.edge x e hx).2.1⟩)
    fuel to_ p hp
  rw [hinv.source_eq] at this
  exact this

/-- C2 at concrete inputs: on the graph `1 -> 2`, `2 -> 3`, `3 -> 1` the call
`findRoute(1, 3)` returns `[1, 2, 3]`. -/
theorem findRoute_path_is_stored_witness :
    ∃ g1, (((newGraph.addDirectRoute 1 2 1).addDirectRoute 2 3 1).addDirectRoute 3 1 1).findRoute
        RangeOrder.stored 10 1 3 = some (g1, ([1, 2, 3], none)) ∧
      [1, 2, 3].head? = some 1 ∧ [1, 2, 3].getLast? = some 3 ∧
      List.Chain' (fun x y =>
        ((((newGraph.addDirectRoute 1 2 1).addDirectRoute 2 3 1).addDirectRoute 3 1 1).route
          x y).isSome = true) [1, 2, 3] := by
  have h : (((newGraph.addDirectRoute 1 2 1).addDirectRoute 2 3 1).addDirectRoute 3 1 1).findRoute
      RangeOrder.stored 10 1 3 =
        some ((((((newGraph.addDirectRoute 1 2 1).addDirectRoute 2 3 1).addDirectRoute 3 1
          1).findRoute RangeOrder.stored 10 1 3).map Prod.fst).getD newGraph,
          ([1, 2, 3], none)) := by
    decide
  exact ⟨_, h, findRoute_path_is_stored _
    (Built.add _ 3 1 1 (Built.add _ 2 3 1 (Built.add _ 1 2 1 Built.empty)))
    RangeOrder.stored 10 1 3 _ [1, 2, 3] h⟩

theorem newSP_edgeTo_none_of_no_path (g : RouteGraph) (hb : Built g) (from_ to_ : PubKey)
    (hno : ¬ ∃ p, g.IsPath from_ to_ p) (ord : RangeOrder) (fuel : Nat) (sp : SP)
    (hsp : newSP ord fuel g from_ = some sp) : mapGet sp.edgeTo to_ = none := by
  obtain ⟨hinv, _⟩ := newSP_inv ord g hb.graphOK from_ fuel sp hsp
  cases he : mapGet sp.edgeTo to_ with
  | none => rfl
  | some e =>
    exfalso
    obtain ⟨_, hroute, d, hw⟩ := hinv.edge to_ e he
    obtain ⟨q, hq, _⟩ := isPath_of_walk g from_ to_ _ (Walk.step _ _ d e hw hroute)
    exact hno ⟨q, hq⟩

/-- C5: on every graph built from `newGraph()` by `addDirectRoute` calls, when no path of
stored direct routes leads from `from` to `to`, `findRoute(from, to)` returns
`ERR_NO_ROUTE` with an empty path: it returns for every iteration order and every fuel
from some bound on, and whatever it returns, at any fuel, is that pair. -/
theorem findRoute_no_path (g : RouteGraph) (hb : Built g) (from_ to_ : PubKey)
    (hno : ¬ ∃ p, g.IsPath from_ to_ p) :
    (∃ N : Nat, ∀ (ord : RangeOrder) (fuel : Nat), N ≤ fuel →
      (g.findRoute ord fuel from_ to_).map Prod.snd =
        some ([], some RouteError.ERR_NO_ROUTE)) ∧
    ∀ (ord : RangeOrder) (fuel : Nat) (g1 : RouteGraph) (r : List PubKey × Option RouteError),
      g.findRoute ord fuel from_ to_ = some (g1, r) →
        r = ([], some RouteError.ERR_NO_ROUTE) := by
  constructor
  · obtain ⟨N, hN⟩ := newSP_total g from_
    refine ⟨N + 1, ?_⟩
    intro ord fuel hle
    have hsome := hN ord fuel (by omega)
    obtain ⟨sp, hsp⟩ := Option.isSome_iff_exists.mp hsome
    have hnone := newSP_edgeTo_none_of_no_path g hb from_ to_ hno ord fuel sp hsp
    obtain ⟨k, rfl⟩ : ∃ k, fuel = k + 1 := ⟨fuel - 1, by omega⟩
    have hc : mapGet g.paths from_ = none := by rw [hb.paths_nil]; rfl
    rw [findRoute_fresh g ord (k + 1) from_ to_ hc, hsp]
    simp [pathTo_no_edge sp k to_ hnone]
  · intro ord fuel g1 r h
    obtain ⟨sp, hsp, hp⟩ := findRoute_built g hb ord fuel from_ to_ g1 r h
    have hnone := newSP_edgeTo_none_of_no_path g hb from_ to_ hno ord fuel sp hsp
    cases fuel with
    | zero => simp [SP.pathTo, SP.pathToLoop] at hp
    | succ k =>
      rw [pathTo_no_edge sp k to_ hnone] at hp
      exact (Option.some.inj hp).symm

/-- C5 at the inputs of the claim: with only the route `1 -> 2` stored, `findRoute(2, 1)`
returns `ERR_NO_ROUTE`. -/
theorem findRoute_no_path_witness :
    (∃ N : Nat, ∀ (ord : RangeOrder) (fuel : Nat), N ≤ fuel →
      ((newGraph.addDirectRoute 1 2 1).findRoute ord fuel 2 1).map Prod.snd =
        some ([], some RouteError.ERR_NO_ROUTE)) ∧
    ∀ (ord : RangeOrder) (fuel : Nat) (g1 : RouteGraph) (r : List PubKey × Option RouteError),
      (newGraph.addDirectRoute 1 2 1).findRoute ord fuel 2 1 = some (g1, r) →
        r = ([], some RouteError.ERR_NO_ROUTE) := by
  apply findRoute_no_path (newGraph.addDirectRoute 1 2 1) (Built.add _ 1 2 1 Built.empty) 2 1
  rintro ⟨p, hp⟩
  rcases isPath_cases _ 2 1 p hp with ⟨_, h⟩ | ⟨c, q, _, hr, _⟩
  · exact absurd h (by decide)
  · have : (newGraph.addDirectRoute 1 2 1).route 2 c = none := by
      simp [RouteGraph.route, RouteGraph.addDirectRoute, newGraph, RouteGraph.clear, mapGet,
        mapSet]
    rw [this] at hr
    exact absurd hr (by simp)

/-! ## The invariant of distances -/

theorem relax_contains (s : SP) (e : DirectRoute) (hwf : PQWF s.pq)
    (h : s.dist e.to_ > wrapInt (s.dist e.from_ + e.weight)) (x : PubKey) :
    (s.relax e).pq.contains x = (decide (e.to_ = x) || s.pq.contains x) := by
  rcases relax_cases s e with hc | hc
  · exact absurd h hc.1
  · rcases hc.2.2.2.2 with ⟨hin, hp⟩ | ⟨hin, hp⟩
    · rw [hp, decreaseKey_contains]
      by_cases hx : e.to_ = x
      · subst hx; simp [hin]
      · simp [hx]
    · rw [hp, insert_contains _ _ _ hwf hin]

theorem relax_edgeTo (s : SP) (e : DirectRoute)
    (h : s.dist e.to_ > wrapInt (s.dist e.from_ + e.weight)) (x : PubKey) :
    mapGet (s.relax e).edgeTo x = if e.to_ = x then some e else mapGet s.edgeTo x := by
  rcases relax_cases s e with hc | hc
  · exact absurd h hc.1
  · rw [hc.2.2.2.1, mapGet_mapSet]

theorem relax_visited (s : SP) (e : DirectRoute)
    (h : s.dist e.to_ > wrapInt (s.dist e.from_ + e.weight)) (x : PubKey) :
    (s.relax e).visited x ↔ s.visited x ∨ x = e.to_ := by
  unfold SP.visited
  rw [relax_source, relax_edgeTo s e h]
  by_cases hx : e.to_ = x
  · simp [hx]
  · have hx' : ¬ x = e.to_ := fun h => hx h.symm
    simp [hx, hx']

theorem spDist_init (g : RouteGraph) (src : PubKey) : SPDist g src [] (spInit g src) where
  bound := by
    intro x
    rw [spInit_dist]
    unfold MaxInt32
    split
    · omega
    · split <;> omega
  source_dist := by rw [spInit_dist, if_pos rfl]
  tension := by
    intro x e h
    simp [spInit_edgeTo, mapGet] at h
  pred_visited := by
    intro x e h
    simp [spInit_edgeTo, mapGet] at h
  queued_visited := by
    intro x h
    rw [spInit_contains] at h
    have : src = x := by simpa using h
    exact Or.inl this.symm
  pend_visited := by
    intro e h
    simp at h
  relaxed := by
    intro u hu hc
    exfalso
    rcases hu with hu | hu
    · rw [spInit_contains, hu, spInit_source] at hc
      simp at hc
    · simp [spInit_edgeTo, mapGet] at hu
  unvisited := by
    intro x hx hne _
    rw [spInit_dist]
    have : ¬ src = x := fun h => hne h.symm
    simp [this, hx]

theorem spDist_delMin (g : RouteGraph) (hg : GraphOK g) (src : PubKey) (s : SP)
    (l : List DirectRoute) (hi : SPInv g src [] s) (h : SPDist g src [] s)
    (hne : s.pq.isEmpty = false) (hl : ∀ e, e ∈ l ↔ e ∈ g.routesOf s.pq.delMin.1) :
    SPDist g src l { s with pq := s.pq.delMin.2 } where
  bound := h.bound
  source_dist := h.source_dist
  tension := h.tension
  pred_visited := h.pred_visited
  queued_visited := by
    intro x hx
    have hc := (delMin_wf_contains s.pq hi.wf hne).2 x
    have hx' : s.pq.delMin.2.contains x = true := hx
    rw [hc] at hx'
    simp only [Bool.and_eq_true] at hx'
    exact h.queued_visited x hx'.1
  pend_visited := by
    intro e he
    have h1 := (hl e).mp he
    rw [(route_of_mem_routesOf hg h1).1]
    exact h.queued_visited _ (delMin_contains_fst s.pq hi.wf hne)
  relaxed := by
    intro u hu hc e he hel
    have hc' : s.pq.delMin.2.contains u = false := hc
    rw [(delMin_wf_contains s.pq hi.wf hne).2 u] at hc'
    by_cases huv : u = s.pq.delMin.1
    · subst huv
      exact absurd ((hl e).mpr he) hel
    · have : s.pq.contains u = false := by simpa [huv] using hc'
      exact h.relaxed u hu this e he (by simp)
  unvisited := h.unvisited

theorem spDist_relax (g : RouteGraph) (hg : GraphOK g) (hsw : SmallWeights g) (src : PubKey)
    (s : SP) (e : DirectRoute) (l : List DirectRoute) (hi : SPInv g src (e :: l) s)
    (h : SPDist g src (e :: l) s) : SPDist g src l (s.relax e) := by
  obtain ⟨hmem, _⟩ := hi.pend e (List.mem_cons_self _ _)
  obtain ⟨_, hne, hw1, _⟩ := route_of_mem_routesOf hg hmem
  have hw2 := hsw _ e hmem
  have hb := h.bound e.from_
  have hwrap : wrapInt (s.dist e.from_ + e.weight) = s.dist e.from_ + e.weight := by
    apply wrapInt_eq_self
    · omega
    · unfold MaxInt32 at hb; omega
  rcases relax_cases s e with hc | hc
  · rw [hc.2]
    have hle : s.dist e.to_ ≤ s.dist e.from_ + e.weight := by
      have := hc.1
      rw [hwrap] at this
      omega
    refine ⟨h.bound, h.source_dist, h.tension, h.pred_visited, h.queued_visited,
      fun e' he' => h.pend_visited e' (List.mem_cons_of_mem _ he'), ?_, h.unvisited⟩
    intro u hu hcu e' he' hel
    by_cases hee : e' = e
    · subst hee
      rw [← (route_of_mem_routesOf hg he').1]
      exact hle
    · exact h.relaxed u hu hcu e' he' (by simp [hee, hel])
  · have hgt := hc.1
    have hd := relax_dist s e hgt
    have hed := relax_edgeTo s e hgt
    have hvis := relax_visited s e hgt
    have hcont := relax_contains s e hi.wf hgt
    rw [hwrap] at hd
    have hgt' : s.dist e.from_ + e.weight < s.dist e.to_ := by rw [hwrap] at hgt; omega
    have hbx := h.bound e.to_
    have hfrom : (s.relax e).dist e.from_ = s.dist e.from_ := by
      rw [hd, if_neg hne]
    refine ⟨?_, ?_, ?_, ?_, ?_, ?_, ?_, ?_⟩
    · intro y
      rw [hd y]
      split
      · omega
      · exact h.bound y
    · rw [hd src]
      split
      · rename_i hx
        rw [hx, h.source_dist] at hgt'
        omega
      · exact h.source_dist
    · intro y e' hy
      rw [hed y] at hy
      by_cases hxy : e.to_ = y
      · rw [if_pos hxy] at hy
        have : e = e' := by simpa using hy
        subst this
        rw [hfrom, hd y, if_pos hxy]
      · rw [if_neg hxy] at hy
        have hold := h.tension y e' hy
        rw [hd y, if_neg hxy, hd e'.from_]
        split
        · rename_i hx
          rw [← hx] at hold
          omega
        · exact hold
    · intro y e' hy
      rw [hed y] at hy
      rw [hvis]
      left
      by_cases hxy : e.to_ = y
      · rw [if_pos hxy] at hy
        have : e = e' := by simpa using hy
        subst this
        exact h.pend_visited e (List.mem_cons_self _ _)
      · rw [if_neg hxy] at hy
        exact h.pred_visited y e' hy
    · intro y hy
      rw [hcont y] at hy
      rw [hvis]
      simp only [Bool.or_eq_true, decide_eq_true_eq] at hy
      rcases hy with hy | hy
      · exact Or.inr hy.symm
      · exact Or.inl (h.queued_visited y hy)
    · intro e' he'
      rw [hvis]
      exact Or.inl (h.pend_visited e' (List.mem_cons_of_mem _ he'))
    · intro u hu hcu e' he' hel
      rw [hcont u] at hcu
      simp only [Bool.or_eq_false_iff, decide_eq_false_iff_not] at hcu
      obtain ⟨hux, hcu'⟩ := hcu
      have hu' : s.visited u := by
        rcases (hvis u).mp hu with h1 | h1
        · exact h1
        · exact absurd h1.symm hux
      have hdu : (s.relax e).dist u = s.dist u := by rw [hd, if_neg hux]
      rw [hdu]
      by_cases hee : e' = e
      · subst hee
        rw [hd e'.to_, if_pos rfl, (route_of_mem_routesOf hg he').1]
      · have hold := h.relaxed u hu' hcu' e' he' (by simp [hee, hel])
        rw [hd e'.to_]
        split
        · rename_i hx
          rw [← hx] at hold
          omega
        · exact hold
    · intro y hy hys hyn
      rw [hed y] at hyn
      by_cases hxy : e.to_ = y
      · rw [if_pos hxy] at hyn
        exact absurd hyn (by simp)
      · rw [if_neg hxy] at hyn
        rw [hd y, if_neg hxy]
        exact h.unvisited y hy hys hyn

/-- Every tree `newSP` returns on a graph of small weights satisfies both invariants and
has an empty queue. -/
theorem newSP_dist_inv (ord : RangeOrder) (g : RouteGraph) (hg : GraphOK g)
    (hsw : SmallWeights g) (src : PubKey) (fuel : Nat) (sp : SP)
    (h : newSP ord fuel g src = some sp) :
    (SPInv g src [] sp ∧ SPDist g src [] sp) ∧ sp.pq.isEmpty = true :=
  spLoop_induct ord g (fun l s => SPInv g src l s ∧ SPDist g src l s)
    (fun s l hs hne hl =>
      ⟨spInv_delMin g hg src s l hs.1 hne hl, spDist_delMin g hg src s l hs.1 hs.2 hne hl⟩)
    (fun s e l hs => ⟨spInv_relax g hg src s e l hs.1, spDist_relax g hg hsw src s e l hs.1 hs.2⟩)
    fuel 0 _ sp ⟨spInv_init g src, spDist_init g src⟩ h

/-! ## Weights -/

theorem smallWeights_of_totalWeight (g : RouteGraph) (hg : GraphOK g)
    (hw : g.totalWeight < 2 ^ 31 - 1) : SmallWeights g := by
  intro v e he
  unfold RouteGraph.routesOf at he
  cases hm : mapGet g.nodes v with
  | none => simp [hm] at he
  | some routes =>
    simp only [hm, Option.getD_some, List.mem_map] at he
    obtain ⟨te, hte, rfl⟩ := he
    have hmem := mem_of_mapGet _ _ _ hm
    have h1 : te.2.weight ≤ (routes.map (fun te => te.2.weight)).sum := by
      apply List.single_le_sum
      · intro x hx
        obtain ⟨te', hte', rfl⟩ := List.mem_map.mp hx
        have := ((hg.2 v routes hmem).2 te'.1 te'.2 hte').2.2.2
        omega
      · exact List.mem_map.mpr ⟨te, hte, rfl⟩
    have h2 : (routes.map (fun te => te.2.weight)).sum ≤ g.totalWeight := by
      unfold RouteGraph.totalWeight
      apply List.single_le_sum
      · intro x hx
        obtain ⟨kv, hkv, rfl⟩ := List.mem_map.mp hx
        apply List.sum_nonneg
        intro y hy
        obtain ⟨te', hte', rfl⟩ := List.mem_map.mp hy
        have := ((hg.2 kv.1 kv.2 hkv).2 te'.1 te'.2 hte').2.2.2
        omega
      · exact List.mem_map.mpr ⟨(v, routes), hmem, rfl⟩
    omega

/-! ## The finished tree -/

theorem mem_keys_of_route (g : RouteGraph) (a b : PubKey) (e : DirectRoute)
    (h : g.route a b = some e) : a ∈ g.nodes.map Prod.fst := by
  unfold RouteGraph.route at h
  cases hm : mapGet g.nodes a with
  | none => simp [hm] at h
  | some routes => exact List.mem_map.mpr ⟨(a, routes), mem_of_mapGet _ _ _ hm, rfl⟩

/-- In the finished tree every predecessor edge is tight. -/
theorem tree_tight (g : RouteGraph) (hg : GraphOK g) (src : PubKey) (sp : SP)
    (hi : SPInv g src [] sp) (hd : SPDist g src [] sp) (he : sp.pq.isEmpty = true)
    (x : PubKey) (e : DirectRoute) (hx : mapGet sp.edgeTo x = some e) :
    sp.dist x = sp.dist e.from_ + e.weight := by
  obtain ⟨hto, hroute, _⟩ := hi.edge x e hx
  have h1 := hd.tension x e hx
  have h2 := hd.relaxed e.from_ (hd.pred_visited x e hx)
    (not_contains_of_isEmpty sp.pq hi.wf he _) e (mem_routesOf_of_route hg hroute).1 (by simp)
  rw [hto] at h2
  omega

/-- In the finished tree no walk from the source is lighter than the recorded distance of
its end, and a walk lighter than `MaxInt32` ends in a reached node if that node has
outgoing routes. -/
theorem walk_lower (g : RouteGraph) (hg : GraphOK g) (src : PubKey) (sp : SP)
    (hi : SPInv g src [] sp) (hd : SPDist g src [] sp) (he : sp.pq.isEmpty = true)
    (y : PubKey) (d : Int) (hw : Walk g src y d) :
    sp.dist y ≤ d ∧ (d < MaxInt32 → y ∈ g.nodes.map Prod.fst → sp.visited y) := by
  induction hw with
  | refl =>
    refine ⟨by rw [hd.source_dist], fun _ _ => Or.inl hi.source_eq.symm⟩
  | step b c d' e hwb hbc ih =>
    obtain ⟨hmem, _, hto, _, hw1⟩ := mem_routesOf_of_route hg hbc
    by_cases hlt : d' + e.weight < MaxInt32
    · have hvb := ih.2 (by omega) (mem_keys_of_route g b c e hbc)
      have hrel := hd.relaxed b hvb (not_contains_of_isEmpty sp.pq hi.wf he _) e hmem (by simp)
      rw [hto] at hrel
      have hle : sp.dist c ≤ d' + e.weight := by
        have := ih.1
        omega
      refine ⟨hle, fun _ hc => ?_⟩
      by_cases hcs : c = src
      · exact Or.inl (hcs.trans hi.source_eq.symm)
      · cases hec : mapGet sp.edgeTo c with
        | none =>
          have := hd.unvisited c hc hcs hec
          omega
        | some e' => exact Or.inr (by rw [hec]; rfl)
    · refine ⟨?_, fun h => absurd h hlt⟩
      have := (hd.bound c).2
      omega

/-- In the finished tree the recorded distance of a reached node is the weight of a walk
from the source. -/
theorem visited_walk (g : RouteGraph) (hg : GraphOK g) (src : PubKey) (sp : SP)
    (hi : SPInv g src [] sp) (hd : SPDist g src [] sp) (he : sp.pq.isEmpty = true) (n : Nat) :
    ∀ x, sp.visited x → sp.dist x ≤ (n : Int) → Walk g src x (sp.dist x) := by
  induction n with
  | zero =>
    intro x hx hle
    by_cases hxs : x = src
    · subst hxs
      rw [hd.source_dist]
      exact Walk.refl
    · exfalso
      rcases hx with hx | hx
      · exact hxs (hx.trans hi.source_eq)
      · obtain ⟨e, hxe⟩ := Option.isSome_iff_exists.mp hx
        have h1 := tree_tight g hg src sp hi hd he x e hxe
        have h2 := (hd.bound e.from_).1
        have h3 := (mem_routesOf_of_route hg (hi.edge x e hxe).2.1).2.2.2.2
        simp at hle
        omega
  | succ n ih =>
    intro x hx hle
    by_cases hxs : x = src
    · subst hxs
      rw [hd.source_dist]
      exact Walk.refl
    · rcases hx with hx | hx
      · exact absurd (hx.trans hi.source_eq) hxs
      · obtain ⟨e, hxe⟩ := Option.isSome_iff_exists.mp hx
        have h1 := tree_tight g hg src sp hi hd he x e hxe
        obtain ⟨_, hroute, _⟩ := hi.edge x e hxe
        have h3 := (mem_routesOf_of_route hg hroute).2.2.2.2
        have hw := ih e.from_ (hd.pred_visited x e hxe) (by push_cast at hle; omega)
        rw [h1]
        exact Walk.step _ _ _ e hw hroute

theorem edgeTo_source_none (g : RouteGraph) (hg : GraphOK g) (src : PubKey) (sp : SP)
    (l : List DirectRoute) (hi : SPInv g src l sp) (hd : SPDist g src l sp) :
    mapGet sp.edgeTo src = none := by
  cases he : mapGet sp.edgeTo src with
  | none => rfl
  | some e =>
    exfalso
    have h1 := hd.tension src e he
    have h2 := (hd.bound e.from_).1
    have h3 := (mem_routesOf_of_route hg (hi.edge src e he).2.1).2.2.2.2
    rw [hd.source_dist] at h1
    omega

theorem pathToLoop_weight (g : RouteGraph) (sp : SP)
    (hedge : ∀ x e, mapGet sp.edgeTo x = some e →
      g.route e.from_ x = some e ∧ sp.dist x = sp.dist e.from_ + e.weight)
    (fuel : Nat) :
    ∀ (acc : List PubKey) (cur t : PubKey) (p : List PubKey), g.IsPath cur t acc.reverse →
      g.pathWeight acc.reverse + sp.dist cur = sp.dist t →
      sp.pathToLoop fuel acc (mapGet sp.edgeTo cur) = some (p, none) →
      g.pathWeight p + sp.dist sp.source = sp.dist t := by
  induction fuel with
  | zero => intro acc cur t p _ _ h; simp [SP.pathToLoop] at h
  | succ n ih =>
    intro acc cur t p hacc hwt h
    cases he : mapGet sp.edgeTo cur with
    | none => simp [he, SP.pathToLoop] at h
    | some e =>
      obtain ⟨hroute, htight⟩ := hedge cur e he
      have hnext : g.IsPath e.from_ t (acc ++ [e.from_]).reverse := by
        rw [List.reverse_append]
        exact isPath_cons g e.from_ cur t _ (by rw [hroute]; rfl) hacc
      have hwnext : g.pathWeight (acc ++ [e.from_]).reverse + sp.dist e.from_ = sp.dist t := by
        rw [List.reverse_append]
        obtain ⟨h1, _, _⟩ := hacc
        cases hr : acc.reverse with
        | nil => rw [hr] at h1; simp at h1
        | cons y rest =>
          rw [hr] at h1 hwt
          have hy : y = cur := by simpa using h1
          subst hy
          have : g.pathWeight ([e.from_].reverse ++ y :: rest) =
              e.weight + g.pathWeight (y :: rest) := pathWeight_cons g e.from_ y rest e hroute
          rw [this]
          omega
      rw [he] at h
      simp only [SP.pathToLoop] at h
      split at h
      · rename_i hs
        have hp : (acc ++ [e.from_]).reverse = p := by simpa [reverseSlice_eq] using h
        rw [← hp, ← hs]
        exact hwnext
      · exact ih _ _ _ _ hnext hwnext h

/-- C6: on a graph built from `newGraph()` by `addDirectRoute` calls whose weights sum to
less than `2^31 - 1`, `newSP(graph, source)` returns a tree (for every iteration order,
from some fuel on), and in every tree it returns `distTo[source]` is 0 and for every
reached node `w` (the source, or a node with an entry in `edgeTo`) `distTo[w]` is the weight
of a path of stored routes from the source to `w` and at most the weight of every such
path. -/
theorem newSP_distances_minimal (g : RouteGraph) (hb : Built g)
    (hw : g.totalWeight < 2 ^ 31 - 1) (source : PubKey) :
    (∃ N : Nat, ∀ (ord : RangeOrder) (fuel : Nat), N ≤ fuel →
      (newSP ord fuel g source).isSome = true) ∧
    ∀ (ord : RangeOrder) (fuel : Nat) (sp : SP), newSP ord fuel g source = some sp →
      sp.dist source = 0 ∧
      ∀ w, (w = source ∨ (mapGet sp.edgeTo w).isSome = true) →
        (∃ q, g.IsPath source w q ∧ g.pathWeight q = sp.dist w) ∧
        ∀ q, g.IsPath source w q → sp.dist w ≤ g.pathWeight q := by
  refine ⟨newSP_total g source, ?_⟩
  intro ord fuel sp hsp
  have hg := hb.graphOK
  obtain ⟨⟨hi, hd⟩, he⟩ :=
    newSP_dist_inv ord g hg (smallWeights_of_totalWeight g hg hw) source fuel sp hsp
  refine ⟨hd.source_dist, ?_⟩
  intro w hwv
  have hv : sp.visited w := by
    rcases hwv with h | h
    · exact Or.inl (h.trans hi.source_eq.symm)
    · exact Or.inr h
  constructor
  · have hnn := (hd.bound w).1
    have hwalk := visited_walk g hg source sp hi hd he (sp.dist w).toNat w hv
      (Int.self_le_toNat _)
    exact isPath_of_walk g source w _ hwalk
  · intro q hq
    exact (walk_lower g hg source sp hi hd he w _ (walk_of_isPath g q source w hq)).1

/-- C6 at concrete inputs: the graph `1 -> 2` (weight 5), `2 -> 1` (weight 1), source 1. -/
theorem newSP_distances_minimal_witness :
    (∃ N : Nat, ∀ (ord : RangeOrder) (fuel : Nat), N ≤ fuel →
      (newSP ord fuel ((newGraph.addDirectRoute 1 2 5).addDirectRoute 2 1 1) 1).isSome = true) ∧
    ∀ (ord : RangeOrder) (fuel : Nat) (sp : SP),
      newSP ord fuel ((newGraph.addDirectRoute 1 2 5).addDirectRoute 2 1 1) 1 = some sp →
      sp.dist 1 = 0 ∧
      ∀ w, (w = 1 ∨ (mapGet sp.edgeTo w).isSome = true) →
        (∃ q, ((newGraph.addDirectRoute 1 2 5).addDirectRoute 2 1 1).IsPath 1 w q ∧
          ((newGraph.addDirectRoute 1 2 5).addDirectRoute 2 1 1).pathWeight q = sp.dist w) ∧
        ∀ q, ((newGraph.addDirectRoute 1 2 5).addDirectRoute 2 1 1).IsPath 1 w q →
          sp.dist w ≤ ((newGraph.addDirectRoute 1 2 5).addDirectRoute 2 1 1).pathWeight q :=
  newSP_distances_minimal ((newGraph.addDirectRoute 1 2 5).addDirectRoute 2 1 1)
    (Built.add _ 2 1 1 (Built.add _ 1 2 5 Built.empty)) (by decide) 1

/-- C1: on a graph built from `newGraph()` by `addDirectRoute` calls (so no tree is cached)
whose weights sum to less than `2^31 - 1`, a path that `findRoute(from, to)` returns without
error is a path of stored routes from `from` to `to`, and no such path weighs less. -/
theorem findRoute_is_cheapest (g : RouteGraph) (hb : Built g)
    (hw : g.totalWeight < 2 ^ 31 - 1) (ord : RangeOrder) (fuel : Nat) (from_ to_ : PubKey)
    (g1 : RouteGraph) (p : List PubKey)
    (h : g.findRoute ord fuel from_ to_ = some (g1, (p, none))) :
    g.IsPath from_ to_ p ∧ ∀ q, g.IsPath from_ to_ q → g.pathWeight p ≤ g.pathWeight q := by
  obtain ⟨sp, hsp, hp⟩ := findRoute_built g hb ord fuel from_ to_ g1 _ h
  have hg := hb.graphOK
  obtain ⟨⟨hi, hd⟩, he⟩ :=
    newSP_dist_inv ord g hg (smallWeights_of_totalWeight g hg hw) from_ fuel sp hsp
  have hpath := pathTo_isPath g sp
    (fun x e hx => ⟨(hi.edge x e hx).1, (hi.edge x e hx).2.1⟩) fuel to_ p hp
  rw [hi.source_eq] at hpath
  have hwt := pathToLoop_weight g sp
    (fun x e hx => ⟨(hi.edge x e hx).2.1, tree_tight g hg from_ sp hi hd he x e hx⟩)
    fuel [to_] to_ to_ p (isPath_single g to_) (by simp [RouteGraph.pathWeight]) hp
  rw [hi.source_eq, hd.source_dist] at hwt
  refine ⟨hpath, ?_⟩
  intro q hq
  have := (walk_lower g hg from_ sp hi hd he to_ _ (walk_of_isPath g q from_ to_ hq)).1
  omega

/-- C1 at concrete inputs: with the routes `1 -> 3` (weight 5), `1 -> 2`, `2 -> 3`, `3 -> 1`
(weight 1 each), `findRoute(1, 3)` returns `[1, 2, 3]`, of weight 2. -/
theorem findRoute_is_cheapest_witness :
    ∃ g1, ((((newGraph.addDirectRoute 1 3 5).addDirectRoute 1 2 1).addDirectRoute 2 3
        1).addDirectRoute 3 1 1).findRoute RangeOrder.stored 10 1 3 =
          some (g1, ([1, 2, 3], none)) ∧
      ((((newGraph.addDirectRoute 1 3 5).addDirectRoute 1 2 1).addDirectRoute 2 3
        1).addDirectRoute 3 1 1).IsPath 1 3 [1, 2, 3] ∧
      ∀ q, ((((newGraph.addDirectRoute 1 3 5).addDirectRoute 1 2 1).addDirectRoute 2 3
        1).addDirectRoute 3 1 1).IsPath 1 3 q →
        ((((newGraph.addDirectRoute 1 3 5).addDirectRoute 1 2 1).addDirectRoute 2 3
          1).addDirectRoute 3 1 1).pathWeight [1, 2, 3] ≤
        ((((newGraph.addDirectRoute 1 3 5).addDirectRoute 1 2 1).addDirectRoute 2 3
          1).addDirectRoute 3 1 1).pathWeight q := by
  have h : ((((newGraph.addDirectRoute 1 3 5).addDirectRoute 1 2 1).addDirectRoute 2 3
      1).addDirectRoute 3 1 1).findRoute RangeOrder.stored 10 1 3 =
        some (((((((newGraph.addDirectRoute 1 3 5).addDirectRoute 1 2 1).addDirectRoute 2 3
          1).addDirectRoute 3 1 1).findRoute RangeOrder.stored 10 1 3).map Prod.fst).getD
            newGraph, ([1, 2, 3], none)) := by
    decide
  exact ⟨_, h, findRoute_is_cheapest _
    (Built.add _ 3 1 1 (Built.add _ 2 3 1 (Built.add _ 1 2 1 (Built.add _ 1 3 5 Built.empty))))
    (by decide) RangeOrder.stored 10 1 3 _ [1, 2, 3] h⟩

/-- C3, the code at the instance of the claim: with only the routes `1 -> 2`, `2 -> 3`,
`3 -> 4` of weight 1 stored, `[1, 2, 3, 4]` is a path of stored routes from 1 to 4, yet
`findRoute(1, 4)` returns `ERR_NO_ROUTE` with an empty path: node 4 has no outgoing route,
so `newSP` never gave it the distance `MaxInt32` and `relax` reads its distance as 0. -/
theorem findRoute_chain_no_route :
    (((newGraph.addDirectRoute 1 2 1).addDirectRoute 2 3 1).addDirectRoute 3 4 1).IsPath 1 4
        [1, 2, 3, 4] ∧
      ((((newGraph.addDirectRoute 1 2 1).addDirectRoute 2 3 1).addDirectRoute 3 4 1).findRoute
        RangeOrder.stored 10 1 4).map Prod.snd = some ([], some RouteError.ERR_NO_ROUTE) ∧
      (((newSP RangeOrder.stored 10
        (((newGraph.addDirectRoute 1 2 1).addDirectRoute 2 3 1).addDirectRoute 3 4 1) 1).map
          SP.distTo) = some [(1, 0), (2, 1), (3, 2)]) := by
  refine ⟨?_, by decide, by decide⟩
  exact isPath_cons _ 1 2 4 _ (by decide) (isPath_cons _ 2 3 4 _ (by decide)
    (isPath_cons _ 3 4 4 _ (by decide) (isPath_single _ 4)))

/-- C4 fails at the graph holding only `1 -> 2`: `findRoute(1, 1)` returns `ERR_NO_ROUTE`
with an empty path, not the path `[1]`. -/
theorem findRoute_self_not_singleton :
    ((newGraph.addDirectRoute 1 2 1).route 1 2).isSome = true ∧
      ((newGraph.addDirectRoute 1 2 1).findRoute RangeOrder.stored 10 1 1).map Prod.snd =
        some ([], some RouteError.ERR_NO_ROUTE) ∧
      ((newGraph.addDirectRoute 1 2 1).findRoute RangeOrder.stored 10 1 1).map Prod.snd ≠
        some ([1], none) := by
  refine ⟨by decide, by decide, by decide⟩

/-- C4 as amended: on a graph built from `newGraph()` by `addDirectRoute` calls (so no tree
is cached) in which no stored weight exceeds `2^62`, `findRoute(a, a)` returns
`ERR_NO_ROUTE` with an empty path for every node `a`: it returns for every iteration order
and every fuel from some bound on, and whatever it returns, at any fuel, is that pair. -/
theorem findRoute_self_no_route (g : RouteGraph) (hb : Built g) (hsw : SmallWeights g)
    (a : PubKey) :
    (∃ N : Nat, ∀ (ord : RangeOrder) (fuel : Nat), N ≤ fuel →
      (g.findRoute ord fuel a a).map Prod.snd = some ([], some RouteError.ERR_NO_ROUTE)) ∧
    ∀ (ord : RangeOrder) (fuel : Nat) (g1 : RouteGraph) (r : List PubKey × Option RouteError),
      g.findRoute ord fuel a a = some (g1, r) → r = ([], some RouteError.ERR_NO_ROUTE) := by
  have hg := hb.graphOK
  have hnone : ∀ (ord : RangeOrder) (fuel : Nat) (sp : SP), newSP ord fuel g a = some sp →
      mapGet sp.edgeTo a = none := by
    intro ord fuel sp hsp
    obtain ⟨⟨hi, hd⟩, _⟩ := newSP_dist_inv ord g hg hsw a fuel sp hsp
    exact edgeTo_source_none g hg a sp [] hi hd
  constructor
  · obtain ⟨N, hN⟩ := newSP_total g a
    refine ⟨N + 1, ?_⟩
    intro ord fuel hle
    obtain ⟨sp, hsp⟩ := Option.isSome_iff_exists.mp (hN ord fuel (by omega))
    obtain ⟨k, rfl⟩ : ∃ k, fuel = k + 1 := ⟨fuel - 1, by omega⟩
    have hc : mapGet g.paths a = none := by rw [hb.paths_nil]; rfl
    rw [findRoute_fresh g ord (k + 1) a a hc, hsp]
    simp [pathTo_no_edge sp k a (hnone ord (k + 1) sp hsp)]
  · intro ord fuel g1 r h
    obtain ⟨sp, hsp, hp⟩ := findRoute_built g hb ord fuel a a g1 r h
    cases fuel with
    | zero => simp [SP.pathTo, SP.pathToLoop] at hp
    | succ k =>
      rw [pathTo_no_edge sp k a (hnone ord (k + 1) sp hsp)] at hp
      exact (Option.some.inj hp).symm

/-- C4 as amended, at concrete inputs: the graph holding only `1 -> 2`, node 1. -/
theorem findRoute_self_no_route_witness :
    (∃ N : Nat, ∀ (ord : RangeOrder) (fuel : Nat), N ≤ fuel →
      ((newGraph.addDirectRoute 1 2 1).findRoute ord fuel 1 1).map Prod.snd =
        some ([], some RouteError.ERR_NO_ROUTE)) ∧
    ∀ (ord : RangeOrder) (fuel : Nat) (g1 : RouteGraph) (r : List PubKey × Option RouteError),
      (newGraph.addDirectRoute 1 2 1).findRoute ord fuel 1 1 = some (g1, r) →
        r = ([], some RouteError.ERR_NO_ROUTE) :=
  findRoute_self_no_route (newGraph.addDirectRoute 1 2 1) (Built.add _ 1 2 1 Built.empty)
    (smallWeights_of_totalWeight _ (Built.add _ 1 2 1 Built.empty).graphOK (by decide)) 1

/-! ## Frame properties of the route graph -/

theorem addDirectRoute_paths (g : RouteGraph) (f t : PubKey) (w : Int) :
    (g.addDirectRoute f t w).paths = g.paths := by
  unfold RouteGraph.addDirectRoute
  split
  · rfl
  · split
    · rfl
    · split <;> rfl

theorem addAll_paths (calls : List (PubKey × PubKey × Int)) :
    ∀ g : RouteGraph, (g.addAll calls).paths = g.paths := by
  induction calls with
  | nil => intro g; rfl
  | cons c rest ih =>
    intro g
    have : g.addAll (c :: rest) = (g.addDirectRoute c.1 c.2.1 c.2.2).addAll rest := rfl
    rw [this, ih, addDirectRoute_paths]

theorem not_mem_keys_of_mapGet_none {K V : Type} [DecidableEq K] (m : List (K × V)) (k : K)
    (h : mapGet m k = none) : k ∉ m.map Prod.fst := by
  induction m with
  | nil => simp
  | cons hd tl ih =>
    obtain ⟨a, b⟩ := hd
    by_cases h1 : a = k
    · simp [mapGet, h1] at h
    · simp only [mapGet, h1, if_false] at h
      simp only [List.map_cons, List.mem_cons, not_or]
      exact ⟨fun h2 => h1 h2.symm, ih h⟩

/-- C11: `addDirectRoute` never writes the tree cache: for every state and all arguments
`paths` after the call is `paths` before it, and so it is after any sequence of calls.
Consequently, in every state in which a tree for `from` is cached, `findRoute(from, to)`
returns after any sequence of `addDirectRoute` calls the path and error it returned before
them, whatever routes the calls added. -/
theorem addDirectRoute_keeps_cache (g : RouteGraph) (calls : List (PubKey × PubKey × Int)) :
    (∀ (f t : PubKey) (w : Int), (g.addDirectRoute f t w).paths = g.paths) ∧
      (g.addAll calls).paths = g.paths ∧
      ∀ (from_ to_ : PubKey) (ord1 ord2 : RangeOrder) (fuel : Nat),
        (mapGet g.paths from_).isSome = true →
        ((g.addAll calls).findRoute ord2 fuel from_ to_).map Prod.snd =
          (g.findRoute ord1 fuel from_ to_).map Prod.snd := by
  refine ⟨fun f t w => addDirectRoute_paths g f t w, addAll_paths calls g, ?_⟩
  intro from_ to_ ord1 ord2 fuel hc
  obtain ⟨sp, hsp⟩ := Option.isSome_iff_exists.mp hc
  have hsp' : mapGet (g.addAll calls).paths from_ = some sp := by rw [addAll_paths]; exact hsp
  rw [findRoute_cached _ ord2 fuel from_ to_ sp hsp', findRoute_cached _ ord1 fuel from_ to_ sp hsp]
  cases sp.pathTo fuel to_ <;> rfl

/-- C18: a `findRoute(from, to)` call that returns leaves the adjacency map `nodes` and every
tree already cached as they were; when a tree for `from` was cached the whole state is
unchanged, and otherwise `paths` gains one entry, the tree `newSP` built for `from`, and
nothing else changes. -/
theorem findRoute_frame (g g1 : RouteGraph) (ord : RangeOrder) (fuel : Nat) (from_ to_ : PubKey)
    (r : List PubKey × Option RouteError) (h : g.findRoute ord fuel from_ to_ = some (g1, r)) :
    g1.nodes = g.nodes ∧
      (∀ k sp, mapGet g.paths k = some sp → mapGet g1.paths k = some sp) ∧
      ((mapGet g.paths from_).isSome = true → g1 = g) ∧
      (mapGet g.paths from_ = none →
        (∃ sp, newSP ord fuel g from_ = some sp ∧ g1.paths = mapSet g.paths from_ sp) ∧
        g1.paths.map Prod.fst = g.paths.map Prod.fst ++ [from_] ∧
        ∀ k, k ≠ from_ → mapGet g1.paths k = mapGet g.paths k) := by
  obtain ⟨sp, _, _, hn, hcase⟩ := findRoute_some g ord fuel from_ to_ g1 r h
  rcases hcase with ⟨hc, hg⟩ | ⟨hc, hsp, hg⟩
  · subst hg
    refine ⟨rfl, fun k sp' hk => hk, fun _ => rfl, fun hnone => ?_⟩
    rw [hnone] at hc
    exact absurd hc (by simp)
  · refine ⟨hn, ?_, ?_, fun _ => ⟨⟨sp, hsp, by rw [hg]⟩, ?_, ?_⟩⟩
    · intro k sp' hk
      rw [hg]
      simp only [mapGet_mapSet]
      by_cases hk2 : from_ = k
      · subst hk2
        rw [hc] at hk
        exact absurd hk (by simp)
      · rw [if_neg hk2]; exact hk
    · intro hsome
      rw [hc] at hsome
      exact absurd hsome (by simp)
    · rw [hg]
      simp only [keys_mapSet]
      rw [if_neg (not_mem_keys_of_mapGet_none _ _ hc)]
    · intro k hk
      rw [hg]
      simp only [mapGet_mapSet]
      rw [if_neg (fun h => hk h.symm)]

theorem graphOK_of_nodes_eq (g g1 : RouteGraph) (h : g1.nodes = g.nodes) (hg : GraphOK g) :
    GraphOK g1 := by
  unfold GraphOK at hg ⊢
  rw [h]
  exact hg

theorem reachable_graphOK {g : RouteGraph} (h : Reachable g) : GraphOK g := by
  induction h with
  | new => exact graphOK_newGraph
  | add g f t w _ ih => exact graphOK_add g f t w ih
  | find g g1 ord fuel f t r _ hf ih =>
    obtain ⟨_, _, _, hn, _⟩ := findRoute_some g ord fuel f t g1 r hf
    exact graphOK_of_nodes_eq g g1 hn ih
  | clear g _ _ => exact graphOK_newGraph

/-- C15: in every graph state reachable from `newGraph()` by `addDirectRoute`, `findRoute`
and `clear` calls, the keys of `nodes` and of every inner map are unique (one route at most
per ordered pair of nodes), and every stored entry `nodes[f][t]` is a route `r` with
`r.from = f`, `r.to = t`, `f != t` and `r.weight >= 1`. -/
theorem reachable_adjacency_invariant (g : RouteGraph) (h : Reachable g) :
    GraphOK g ∧
      ∀ (f t : PubKey) (r : DirectRoute), g.route f t = some r →
        r.from_ = f ∧ r.to_ = t ∧ f ≠ t ∧ 1 ≤ r.weight := by
  refine ⟨reachable_graphOK h, ?_⟩
  intro f t r hr
  exact (mem_routesOf_of_route (reachable_graphOK h) hr).2

/-- C11 at concrete inputs: on the graph `1 -> 2`, `2 -> 1`, `3 -> 1` a first
`findRoute(1, 3)` caches the tree of node 1 and finds no route; after `addDirectRoute(2, 3, 1)`
the path `[1, 2, 3]` is stored, and `findRoute(1, 3)` still returns `ERR_NO_ROUTE`. -/
theorem addDirectRoute_keeps_cache_witness :
    ∃ g, (((newGraph.addDirectRoute 1 2 1).addDirectRoute 2 1 1).addDirectRoute 3 1 1).findRoute
        RangeOrder.stored 10 1 3 = some (g, ([], some RouteError.ERR_NO_ROUTE)) ∧
      (g.addAll [(2, 3, 1)]).IsPath 1 3 [1, 2, 3] ∧
      (g.addAll [(2, 3, 1)]).paths = g.paths ∧
      ((g.addAll [(2, 3, 1)]).findRoute RangeOrder.reversed 10 1 3).map Prod.snd =
        some ([], some RouteError.ERR_NO_ROUTE) := by
  have h : (((newGraph.addDirectRoute 1 2 1).addDirectRoute 2 1 1).addDirectRoute 3 1 1).findRoute
      RangeOrder.stored 10 1 3 =
        some ((((((newGraph.addDirectRoute 1 2 1).addDirectRoute 2 1 1).addDirectRoute 3 1
          1).findRoute RangeOrder.stored 10 1 3).map Prod.fst).getD newGraph,
          ([], some RouteError.ERR_NO_ROUTE)) := by
    decide
  have hk := addDirectRoute_keeps_cache
    ((((((newGraph.addDirectRoute 1 2 1).addDirectRoute 2 1 1).addDirectRoute 3 1 1).findRoute
      RangeOrder.stored 10 1 3).map Prod.fst).getD newGraph) [(2, 3, 1)]
  refine ⟨_, h, ?_, hk.2.1,
    (hk.2.2 1 3 RangeOrder.stored RangeOrder.reversed 10 (by decide)).trans (by decide)⟩
  exact isPath_cons _ 1 2 3 _ (by decide) (isPath_cons _ 2 3 3 _ (by decide)
    (isPath_single _ 3))

/-- C18 at concrete inputs: on the graph `1 -> 2`, `2 -> 1` with an empty cache,
`findRoute(1, 2)` returns `[1, 2]` and caches the tree of node 1. -/
theorem findRoute_frame_witness :
    ∃ g1, ((newGraph.addDirectRoute 1 2 1).addDirectRoute 2 1 1).findRoute
        RangeOrder.stored 10 1 2 = some (g1, ([1, 2], none)) ∧
      g1.nodes = ((newGraph.addDirectRoute 1 2 1).addDirectRoute 2 1 1).nodes ∧
      g1.paths.map Prod.fst = [1] := by
  have h : ((newGraph.addDirectRoute 1 2 1).addDirectRoute 2 1 1).findRoute
      RangeOrder.stored 10 1 2 =
        some (((((newGraph.addDirectRoute 1 2 1).addDirectRoute 2 1 1).findRoute
          RangeOrder.stored 10 1 2).map Prod.fst).getD newGraph, ([1, 2], none)) := by
    decide
  have hf := findRoute_frame _ _ RangeOrder.stored 10 1 2 _ h
  exact ⟨_, h, hf.1, (hf.2.2.2 (by decide)).2.1⟩

/-- C15 at concrete inputs: the state after `addDirectRoute(1, 2, 3)`, `findRoute(1, 2)`,
`clear()` and `addDirectRoute(2, 1, 4)`. -/
theorem reachable_adjacency_invariant_witness :
    GraphOK (((((newGraph.addDirectRoute 1 2 3).findRoute RangeOrder.stored 10 1 2).map
        Prod.fst).getD newGraph).clear.addDirectRoute 2 1 4) ∧
      ∀ (f t : PubKey) (r : DirectRoute),
        (((((newGraph.addDirectRoute 1 2 3).findRoute RangeOrder.stored 10 1 2).map
          Prod.fst).getD newGraph).clear.addDirectRoute 2 1 4).route f t = some r →
        r.from_ = f ∧ r.to_ = t ∧ f ≠ t ∧ 1 ≤ r.weight := by
  have h : (newGraph.addDirectRoute 1 2 3).findRoute RangeOrder.stored 10 1 2 =
      some ((((newGraph.addDirectRoute 1 2 3).findRoute RangeOrder.stored 10 1 2).map
        Prod.fst).getD newGraph, ([], some RouteError.ERR_NO_ROUTE)) := by
    decide
  exact reachable_adjacency_invariant _
    (Reachable.add _ 2 1 4 (Reachable.clear _
      (Reachable.find _ _ RangeOrder.stored 10 1 2 _ (Reachable.add _ 1 2 3 Reachable.new) h)))

/-! ## Heap order is not kept -/

/-- C12, the code at a failing sequence: after `insert(1, 1)`, `insert(2, 2)`,
`insert(3, 3)` and a first `delMin()` (which returns 1) the queue holds node 3 with
priority 3 at the root and node 2 with priority 2 below it, and the second `delMin()`
returns node 3, not the entry of least priority. Likewise after `insert(1, 1)`,
`insert(2, 2)`, `decreaseKey(2, 0)` the call `delMin()` returns node 1, of priority 1, while
node 2 has priority 0. -/
theorem delMin_returns_non_minimum :
    (((newPQ.insert 1 1).insert 2 2).insert 3 3).delMin.1 = 1 ∧
      (((newPQ.insert 1 1).insert 2 2).insert 3 3).delMin.2.keys =
        [zeroND, { node := 3, dist := 3 }, { node := 2, dist := 2 }] ∧
      (((newPQ.insert 1 1).insert 2 2).insert 3 3).delMin.2.isEmpty = false ∧
      (((newPQ.insert 1 1).insert 2 2).insert 3 3).delMin.2.delMin.1 = 3 ∧
      (((newPQ.insert 1 1).insert 2 2).decreaseKey 2 0).keys =
        [zeroND, { node := 1, dist := 1 }, { node := 2, dist := 0 }] ∧
      (((newPQ.insert 1 1).insert 2 2).decreaseKey 2 0).delMin.1 = 1 := by
  decide

/-- C13, the code at a failing input: the queue built by `insert(1, 1)`, `insert(2, 2)`,
`insert(3, 3)` is min-heap ordered with a consistent position index and is not empty, and
the queue after `delMin()` is not min-heap ordered. -/
theorem delMin_breaks_heap_order :
    HeapOrdered (((newPQ.insert 1 1).insert 2 2).insert 3 3) ∧
      PQWF (((newPQ.insert 1 1).insert 2 2).insert 3 3) ∧
      (((newPQ.insert 1 1).insert 2 2).insert 3 3).isEmpty = false ∧
      ¬ HeapOrdered (((newPQ.insert 1 1).insert 2 2).insert 3 3).delMin.2 := by
  refine ⟨?_, ?_, by decide, ?_⟩
  · unfold HeapOrdered
    decide
  · exact insert_wf _ 3 3 (insert_wf _ 2 2 (insert_wf newPQ 1 1 newPQ_wf (by decide))
      (by decide)) (by decide)
  · unfold HeapOrdered
    decide

/-- C14, the code at a failing input: the queue built by `insert(1, 1)`, `insert(2, 2)` is
min-heap ordered with a consistent position index and contains node 2; after
`decreaseKey(2, 0)` node 2 has priority 0 and still sits below node 1 of priority 1, so the
queue is not min-heap ordered. -/
theorem decreaseKey_breaks_heap_order :
    HeapOrdered ((newPQ.insert 1 1).insert 2 2) ∧
      PQWF ((newPQ.insert 1 1).insert 2 2) ∧
      ((newPQ.insert 1 1).insert 2 2).contains 2 = true ∧
      (((newPQ.insert 1 1).insert 2 2).decreaseKey 2 0).keys =
        [zeroND, { node := 1, dist := 1 }, { node := 2, dist := 0 }] ∧
      ¬ HeapOrdered (((newPQ.insert 1 1).insert 2 2).decreaseKey 2 0) := by
  refine ⟨?_, ?_, by decide, by decide, ?_⟩
  · unfold HeapOrdered
    decide
  · exact insert_wf _ 2 2 (insert_wf newPQ 1 1 newPQ_wf (by decide)) (by decide)
  · unfold HeapOrdered
    decide

/-! ## The reverse index of the queue -/

theorem delMin_of_isEmpty (pq : MinPQ) (h : pq.isEmpty = true) : pq.delMin.2 = pq := by
  simp [MinPQ.delMin, h]

theorem PQReach.wf_live {pq : MinPQ} {live : List PubKey} (h : PQReach pq live) :
    PQWF pq ∧ ∀ k, pq.contains k = true ↔ k ∈ live := by
  induction h with
  | new => exact ⟨newPQ_wf, fun k => by simp [newPQ_contains]⟩
  | insert pq live x d _ hx ih =>
    refine ⟨insert_wf pq x d ih.1 hx, fun k => ?_⟩
    rw [insert_contains pq x d ih.1 hx]
    simp only [Bool.or_eq_true, decide_eq_true_eq, List.mem_cons, ih.2 k]
    constructor
    · rintro (h | h)
      · exact Or.inl h.symm
      · exact Or.inr h
    · rintro (h | h)
      · exact Or.inl h.symm
      · exact Or.inr h
  | decreaseKey pq live x d _ ih =>
    refine ⟨decreaseKey_wf pq x d ih.1, fun k => ?_⟩
    rw [decreaseKey_contains]
    exact ih.2 k
  | delMin pq live _ ih =>
    cases he : pq.isEmpty with
    | true =>
      rw [delMin_of_isEmpty pq he]
      refine ⟨ih.1, fun k => ?_⟩
      have hk := not_contains_of_isEmpty pq ih.1 he k
      constructor
      · intro h
        rw [hk] at h
        exact absurd h (by simp)
      · intro h
        have := (List.mem_filter.mp h).1
        exact (ih.2 k).mpr this
    | false =>
      obtain ⟨hw, hc⟩ := delMin_wf_contains pq ih.1 he
      refine ⟨hw, fun k => ?_⟩
      rw [hc k]
      simp only [Bool.and_eq_true, List.mem_filter, ih.2 k]

theorem mem_entries_iff (pq : MinPQ) (nd : NodeDist) :
    nd ∈ pq.entries ↔ ∃ i, 1 ≤ i ∧ pq.keys[i]? = some nd := by
  unfold MinPQ.entries
  cases hk : pq.keys with
  | nil => simp
  | cons z rest =>
    simp only [List.tail_cons]
    rw [List.mem_iff_getElem?]
    constructor
    · rintro ⟨n, hn⟩
      exact ⟨n + 1, by omega, by simpa using hn⟩
    · rintro ⟨i, hi, hnd⟩
      obtain ⟨n, rfl⟩ : ∃ n, i = n + 1 := ⟨i - 1, by omega⟩
      exact ⟨n, by simpa using hnd⟩

theorem delMin_entries (pq : MinPQ) (h : PQWF pq) (hne : pq.isEmpty = false) (nd : NodeDist) :
    nd ∈ pq.delMin.2.entries ↔ nd ∈ pq.entries ∧ nd.node ≠ pq.delMin.1 := by
  have h2 := two_le_length_of_not_isEmpty pq h hne
  have hn1 : 1 ≤ pq.keys.length - 1 := by omega
  have hn : pq.keys.length - 1 < pq.keys.length := by omega
  have h1lt : 1 < pq.keys.length := by omega
  have p1 := h.pos_of_key (Nat.le_refl 1) h1lt
  have pn := h.pos_of_key hn1 hn
  rw [mem_entries_iff, mem_entries_iff, delMin_eq pq hne]
  simp only [List.getElem?_take, exch_keys pq 1 (pq.keys.length - 1) _ h1lt hn]
  constructor
  · rintro ⟨m, hm1, hnd⟩
    by_cases hlt : m < pq.keys.length - 1
    · rw [if_pos hlt, if_neg (by omega)] at hnd
      by_cases hm : 1 = m
      · rw [if_pos hm] at hnd
        have hnd' : pq.keys.getD (pq.keys.length - 1) zeroND = nd := by simpa using hnd
        subst hnd'
        refine ⟨⟨_, hn1, getElem?_getD_of_lt _ _ hn⟩, ?_⟩
        intro heq
        rw [heq, p1] at pn
        have : 1 = pq.keys.length - 1 := by simpa using pn
        omega
      · rw [if_neg hm] at hnd
        refine ⟨⟨m, hm1, hnd⟩, ?_⟩
        intro heq
        have hp := (h.2 nd.node m).mpr ⟨hm1, nd, hnd, rfl⟩
        rw [heq, p1] at hp
        have : 1 = m := by simpa using hp
        exact hm this
    · rw [if_neg hlt] at hnd
      exact absurd hnd (by simp)
  · rintro ⟨⟨m, hm1, hnd⟩, hne'⟩
    have hmlt := (List.getElem?_eq_some.mp hnd).1
    have hm1' : m ≠ 1 := by
      intro hm
      subst hm
      rw [getElem?_getD_of_lt _ _ h1lt] at hnd
      have : pq.keys.getD 1 zeroND = nd := by simpa using hnd
      exact hne' (by rw [← this])
    by_cases hmn : m = pq.keys.length - 1
    · refine ⟨1, Nat.le_refl 1, ?_⟩
      rw [if_pos (by omega), if_neg (by omega), if_pos rfl]
      subst hmn
      rw [getElem?_getD_of_lt _ _ hn] at hnd
      exact hnd
    · refine ⟨m, hm1, ?_⟩
      rw [if_pos (by omega), if_neg (fun h => hmn h.symm), if_neg (fun h => hm1' h.symm)]
      exact hnd

/-- C19: for every queue reachable from `newPQ()` by `insert` (of a key not contained),
`decreaseKey` and `delMin` calls, `positions[keys[i].node] = i` for every index
`1 <= i < len(keys)`, the keys of `positions` are exactly the nodes stored at those
indices, and `contains(k)` holds exactly for the keys inserted and not yet returned by
`delMin`; on a non-empty such queue `delMin` returns a contained key, shortens `keys` by
one, and the entries afterwards are exactly the other entries, with their priorities. -/
theorem pq_reverse_index (pq : MinPQ) (live : List PubKey) (h : PQReach pq live) :
    (∀ i, 1 ≤ i → i < pq.keys.length →
      mapGet pq.positions (pq.keys.getD i zeroND).node = some i) ∧
    (∀ k, (mapGet pq.positions k).isSome = true ↔
      ∃ i, 1 ≤ i ∧ i < pq.keys.length ∧ (pq.keys.getD i zeroND).node = k) ∧
    (∀ k, pq.contains k = true ↔ k ∈ live) ∧
    (pq.isEmpty = false →
      pq.contains pq.delMin.1 = true ∧
      pq.delMin.2.keys.length + 1 = pq.keys.length ∧
      ∀ nd, nd ∈ pq.delMin.2.entries ↔ nd ∈ pq.entries ∧ nd.node ≠ pq.delMin.1) := by
  obtain ⟨hw, hl⟩ := h.wf_live
  refine ⟨fun i h1 hi => hw.pos_of_key h1 hi, ?_, hl, ?_⟩
  · intro k
    constructor
    · intro hs
      obtain ⟨i, hi⟩ := Option.isSome_iff_exists.mp hs
      exact ⟨i, hw.lt_of_pos hi⟩
    · rintro ⟨i, h1, hi, hk⟩
      rw [← hk, hw.pos_of_key h1 hi]
      rfl
  · intro hne
    exact ⟨delMin_contains_fst pq hw hne, (delMin_length pq hw.1 hne).1,
      fun nd => delMin_entries pq hw hne nd⟩

/-- C19 at concrete inputs: after `insert(1, 5)`, `insert(2, 3)`, `decreaseKey(1, 1)` and
`delMin()`, which returns node 2, exactly node 1 is contained. -/
theorem pq_reverse_index_witness :
    (((newPQ.insert 1 5).insert 2 3).decreaseKey 1 1).delMin.1 = 2 ∧
      ∀ k, (((newPQ.insert 1 5).insert 2 3).decreaseKey 1 1).delMin.2.contains k = true ↔
        k ∈ [1] :=
  ⟨by decide, (pq_reverse_index _ _ (PQReach.delMin _ _ (PQReach.decreaseKey _ _ 1 1
    (PQReach.insert _ _ 2 3 (PQReach.insert _ _ 1 5 PQReach.new (by decide))
      (by decide))))).2.2.1⟩

/-! ## Returned paths have no repeated node -/

theorem pathToLoop_chain (sp : SP) (R : PubKey → PubKey → Prop)
    (hedge : ∀ x e, mapGet sp.edgeTo x = some e → R e.from_ x) (fuel : Nat) :
    ∀ (acc : List PubKey) (cur : PubKey) (p : List PubKey), acc.reverse.head? = some cur →
      List.Chain' R acc.reverse →
      sp.pathToLoop fuel acc (mapGet sp.edgeTo cur) = some (p, none) → List.Chain' R p := by
  induction fuel with
  | zero => intro acc cur p _ _ h; simp [SP.pathToLoop] at h
  | succ n ih =>
    intro acc cur p hhead hchain h
    cases he : mapGet sp.edgeTo cur with
    | none => simp [he, SP.pathToLoop] at h
    | some e =>
      have hR := hedge cur e he
      have hrev : (acc ++ [e.from_]).reverse = e.from_ :: acc.reverse := by simp
      have hnext : List.Chain' R (acc ++ [e.from_]).reverse := by
        rw [hrev, List.chain'_cons']
        refine ⟨?_, hchain⟩
        intro y hy
        rw [hhead] at hy
        have : cur = y := by simpa using hy
        rw [← this]
        exact hR
      have hhead' : (acc ++ [e.from_]).reverse.head? = some e.from_ := by rw [hrev]; rfl
      rw [he] at h
      simp only [SP.pathToLoop] at h
      split at h
      · have hp : (acc ++ [e.from_]).reverse = p := by simpa [reverseSlice_eq] using h
        rw [← hp]
        exact hnext
      · exact ih _ _ _ hhead' hnext h

theorem nodup_of_chain_dist (sp : SP) (p : List PubKey)
    (h : List.Chain' (fun a b => sp.dist a < sp.dist b) p) : p.Nodup := by
  haveI : IsTrans PubKey (fun a b => sp.dist a < sp.dist b) :=
    ⟨fun _ _ _ h1 h2 => lt_trans h1 h2⟩
  have hp := List.chain'_iff_pairwise.mp h
  exact hp.imp (fun {a b} hab heq => by rw [heq] at hab; exact lt_irrefl _ hab)

/-- C16: on a graph built from `newGraph()` by `addDirectRoute` calls whose weights sum to
less than `2^31 - 1`, `newSP(graph, source)` returns a tree (for every iteration order, from
some fuel on), and in every tree it returns each predecessor edge `edgeTo[w] = (v -> w)`
ends in `w` and has `distTo[v] < distTo[w]`; hence no path that `pathTo` returns without
error holds a node twice. -/
theorem tree_edges_increase_dist (g : RouteGraph) (hb : Built g)
    (hw : g.totalWeight < 2 ^ 31 - 1) (source : PubKey) :
    (∃ N : Nat, ∀ (ord : RangeOrder) (fuel : Nat), N ≤ fuel →
      (newSP ord fuel g source).isSome = true) ∧
    ∀ (ord : RangeOrder) (fuel : Nat) (sp : SP), newSP ord fuel g source = some sp →
      (∀ w e, mapGet sp.edgeTo w = some e → e.to_ = w ∧ sp.dist e.from_ < sp.dist w) ∧
      ∀ (fuel' : Nat) (to_ : PubKey) (p : List PubKey),
        sp.pathTo fuel' to_ = some (p, none) → p.Nodup := by
  refine ⟨newSP_total g source, ?_⟩
  intro ord fuel sp hsp
  have hg := hb.graphOK
  obtain ⟨⟨hi, hd⟩, he⟩ :=
    newSP_dist_inv ord g hg (smallWeights_of_totalWeight g hg hw) source fuel sp hsp
  have hedge : ∀ w e, mapGet sp.edgeTo w = some e → e.to_ = w ∧ sp.dist e.from_ < sp.dist w := by
    intro w e hwe
    obtain ⟨hto, hroute, _⟩ := hi.edge w e hwe
    have h1 := tree_tight g hg source sp hi hd he w e hwe
    have h2 := (mem_routesOf_of_route hg hroute).2.2.2.2
    exact ⟨hto, by omega⟩
  refine ⟨hedge, ?_⟩
  intro fuel' to_ p hp
  apply nodup_of_chain_dist sp
  exact pathToLoop_chain sp _ (fun x e hx => (hedge x e hx).2) fuel' [to_] to_ p rfl
    (List.chain'_singleton to_) hp

/-- C16 at concrete inputs: the graph `1 -> 2`, `2 -> 3`, `3 -> 1` of weight 1, source 1. -/
theorem tree_edges_increase_dist_witness :
    (∃ N : Nat, ∀ (ord : RangeOrder) (fuel : Nat), N ≤ fuel →
      (newSP ord fuel
        (((newGraph.addDirectRoute 1 2 1).addDirectRoute 2 3 1).addDirectRoute 3 1 1)
        1).isSome = true) ∧
    ∀ (ord : RangeOrder) (fuel : Nat) (sp : SP),
      newSP ord fuel (((newGraph.addDirectRoute 1 2 1).addDirectRoute 2 3 1).addDirectRoute 3 1 1)
        1 = some sp →
      (∀ w e, mapGet sp.edgeTo w = some e → e.to_ = w ∧ sp.dist e.from_ < sp.dist w) ∧
      ∀ (fuel' : Nat) (to_ : PubKey) (p : List PubKey),
        sp.pathTo fuel' to_ = some (p, none) → p.Nodup :=
  tree_edges_increase_dist _
    (Built.add _ 3 1 1 (Built.add _ 2 3 1 (Built.add _ 1 2 1 Built.empty))) (by decide) 1

/-! ## `findRoute` is total -/

theorem pathToLoop_total (g : RouteGraph) (hg : GraphOK g) (src : PubKey) (sp : SP)
    (hi : SPInv g src [] sp) (hd : SPDist g src [] sp) (he : sp.pq.isEmpty = true) (n : Nat) :
    ∀ (fuel : Nat) (acc : List PubKey) (cur : PubKey), sp.dist cur ≤ (n : Int) → n < fuel →
      (sp.pathToLoop fuel acc (mapGet sp.edgeTo cur)).isSome = true := by
  induction n with
  | zero =>
    intro fuel acc cur hle hlt
    obtain ⟨k, rfl⟩ : ∃ k, fuel = k + 1 := ⟨fuel - 1, by omega⟩
    cases hc : mapGet sp.edgeTo cur with
    | none => simp [SP.pathToLoop]
    | some e =>
      exfalso
      have h1 := tree_tight g hg src sp hi hd he cur e hc
      have h2 := (hd.bound e.from_).1
      have h3 := (mem_routesOf_of_route hg (hi.edge cur e hc).2.1).2.2.2.2
      simp at hle
      omega
  | succ n ih =>
    intro fuel acc cur hle hlt
    obtain ⟨k, rfl⟩ : ∃ k, fuel = k + 1 := ⟨fuel - 1, by omega⟩
    cases hc : mapGet sp.edgeTo cur with
    | none => simp [SP.pathToLoop]
    | some e =>
      have h1 := tree_tight g hg src sp hi hd he cur e hc
      have h3 := (mem_routesOf_of_route hg (hi.edge cur e hc).2.1).2.2.2.2
      simp only [SP.pathToLoop]
      split
      · rfl
      · exact ih k _ e.from_ (by push_cast at hle; omega) (by omega)

theorem pathTo_total (g : RouteGraph) (hg : GraphOK g) (src : PubKey) (sp : SP)
    (hi : SPInv g src [] sp) (hd : SPDist g src [] sp) (he : sp.pq.isEmpty = true)
    (fuel : Nat) (hf : 2 ^ 31 ≤ fuel) (t : PubKey) : (sp.pathTo fuel t).isSome = true := by
  have hb := hd.bound t
  apply pathToLoop_total g hg src sp hi hd he (2 ^ 31 - 1) fuel [t] t
  · unfold MaxInt32 at hb
    have : ((2 ^ 31 - 1 : Nat) : Int) = 2147483647 := by norm_num
    omega
  · have : (2 : Nat) ^ 31 = 2147483648 := by norm_num
    omega

/-- C17: on a graph built from `newGraph()` by `addDirectRoute` calls whose weights sum to
less than `2^31 - 1`, for every source there is a fuel from which on, whatever the
iteration order, the extraction loop of `newSP` ends with an empty queue, the backward walk
of `pathTo` on the resulting tree ends for every destination, and `findRoute` returns. -/
theorem findRoute_total (g : RouteGraph) (hb : Built g) (hw : g.totalWeight < 2 ^ 31 - 1)
    (source : PubKey) :
    ∃ N : Nat, ∀ (ord : RangeOrder) (fuel : Nat), N ≤ fuel →
      ∃ sp, newSP ord fuel g source = some sp ∧ sp.pq.isEmpty = true ∧
        ∀ to_, (sp.pathTo fuel to_).isSome = true ∧
          (g.findRoute ord fuel source to_).isSome = true := by
  obtain ⟨N, hN⟩ := newSP_total g source
  refine ⟨N + 2 ^ 31, ?_⟩
  intro ord fuel hle
  obtain ⟨sp, hsp⟩ := Option.isSome_iff_exists.mp (hN ord fuel (by omega))
  have hg := hb.graphOK
  obtain ⟨⟨hi, hd⟩, he⟩ :=
    newSP_dist_inv ord g hg (smallWeights_of_totalWeight g hg hw) source fuel sp hsp
  refine ⟨sp, hsp, he, ?_⟩
  intro to_
  have hp := pathTo_total g hg source sp hi hd he fuel (by omega) to_
  refine ⟨hp, ?_⟩
  have hc : mapGet g.paths source = none := by rw [hb.paths_nil]; rfl
  rw [findRoute_fresh g ord fuel source to_ hc, hsp]
  obtain ⟨r, hr⟩ := Option.isSome_iff_exists.mp hp
  simp [hr]

/-- C17 at concrete inputs: the graph `1 -> 2`, `2 -> 3`, `3 -> 1` of weight 1, source 1. -/
theorem findRoute_total_witness :
    ∃ N : Nat, ∀ (ord : RangeOrder) (fuel : Nat), N ≤ fuel →
      ∃ sp, newSP ord fuel
          (((newGraph.addDirectRoute 1 2 1).addDirectRoute 2 3 1).addDirectRoute 3 1 1) 1 =
            some sp ∧ sp.pq.isEmpty = true ∧
        ∀ to_, (sp.pathTo fuel to_).isSome = true ∧
          ((((newGraph.addDirectRoute 1 2 1).addDirectRoute 2 3 1).addDirectRoute 3 1 1).findRoute
            ord fuel 1 to_).isSome = true :=
  findRoute_total _
    (Built.add _ 3 1 1 (Built.add _ 2 3 1 (Built.add _ 1 2 1 Built.empty))) (by decide) 1

/-! ## Nodes without outgoing routes -/

theorem spInit_sink (g : RouteGraph) (src x : PubKey) (hx : x ∉ g.nodes.map Prod.fst) :
    (spInit g src).dist x = 0 ∧ mapGet (spInit g src).edgeTo x = none := by
  refine ⟨?_, rfl⟩
  rw [spInit_dist, if_neg hx]
  split <;> rfl

theorem relax_sink (g : RouteGraph) (hg : GraphOK g) (hsw : SmallWeights g) (src : PubKey)
    (s : SP) (e : DirectRoute) (l : List DirectRoute) (hi : SPInv g src (e :: l) s)
    (hd : SPDist g src (e :: l) s)
    (h : ∀ x, x ∉ g.nodes.map Prod.fst → s.dist x = 0 ∧ mapGet s.edgeTo x = none) :
    ∀ x, x ∉ g.nodes.map Prod.fst →
      (s.relax e).dist x = 0 ∧ mapGet (s.relax e).edgeTo x = none := by
  intro x hx
  rcases relax_cases s e with hc | hc
  · rw [hc.2]; exact h x hx
  · have hgt := hc.1
    obtain ⟨hmem, _⟩ := hi.pend e (List.mem_cons_self _ _)
    obtain ⟨_, _, hw1, _⟩ := route_of_mem_routesOf hg hmem
    have hw2 := hsw _ e hmem
    have hb := hd.bound e.from_
    have hwrap : wrapInt (s.dist e.from_ + e.weight) = s.dist e.from_ + e.weight := by
      apply wrapInt_eq_self
      · omega
      · unfold MaxInt32 at hb; omega
    have hne : e.to_ ≠ x := by
      intro heq
      have := (h x hx).1
      rw [← heq] at this
      rw [hwrap, this] at hgt
      omega
    rw [relax_dist s e hgt, relax_edgeTo s e hgt, if_neg hne, if_neg hne]
    exact h x hx

/-- On a graph of small weights the tree `newSP` returns has no predecessor edge for a node
without outgoing routes, and reads its distance as 0. -/
theorem newSP_sink (ord : RangeOrder) (g : RouteGraph) (hg : GraphOK g) (hsw : SmallWeights g)
    (src : PubKey) (fuel : Nat) (sp : SP) (h : newSP ord fuel g src = some sp) :
    ∀ x, x ∉ g.nodes.map Prod.fst → sp.dist x = 0 ∧ mapGet sp.edgeTo x = none :=
  (spLoop_induct ord g
    (fun l s => (SPInv g src l s ∧ SPDist g src l s) ∧
      ∀ x, x ∉ g.nodes.map Prod.fst → s.dist x = 0 ∧ mapGet s.edgeTo x = none)
    (fun s l hs hne hl =>
      ⟨⟨spInv_delMin g hg src s l hs.1.1 hne hl, spDist_delMin g hg src s l hs.1.1 hs.1.2 hne hl⟩,
        hs.2⟩)
    (fun s e l hs =>
      ⟨⟨spInv_relax g hg src s e l hs.1.1, spDist_relax g hg hsw src s e l hs.1.1 hs.1.2⟩,
        relax_sink g hg hsw src s e l hs.1.1 hs.1.2 hs.2⟩)
    fuel 0 _ sp ⟨⟨spInv_init g src, spDist_init g src⟩, fun x hx => spInit_sink g src x hx⟩
    h).1.2

/-- C20 fails when a weight makes the addition in `relax` wrap around: with the routes
`1 -> 2` of weight 1 and `2 -> 3` of weight `2^63 - 1`, node 3 has no outgoing route, the
candidate distance `1 + (2^63 - 1)` wraps to `-2^63`, below the 0 read for node 3, and
`findRoute(1, 3)` returns `[1, 2, 3]` without error. -/
theorem findRoute_sink_reached_by_wrap :
    mapGet ((newGraph.addDirectRoute 1 2 1).addDirectRoute 2 3 9223372036854775807).nodes 3 =
        none ∧
      wrapInt (1 + 9223372036854775807) = -9223372036854775808 ∧
      (((newGraph.addDirectRoute 1 2 1).addDirectRoute 2 3 9223372036854775807).findRoute
        RangeOrder.stored 10 1 3).map Prod.snd = some ([1, 2, 3], none) := by
  refine ⟨by decide, by decide, by decide⟩

/-- C20 as amended: on a graph built from `newGraph()` by `addDirectRoute` calls (so no tree
is cached) in which no stored weight exceeds `2^62`, when `to` is not a key of `nodes` the
tree `newSP` builds for `from` has no predecessor edge for `to` and reads its distance as
0, and `findRoute(from, to)` returns `ERR_NO_ROUTE` with an empty path: it returns for
every iteration order and every fuel from some bound on, and whatever it returns, at any
fuel, is that pair. -/
theorem findRoute_sink_no_route (g : RouteGraph) (hb : Built g) (hsw : SmallWeights g)
    (from_ to_ : PubKey) (hto : mapGet g.nodes to_ = none) :
    (∀ (ord : RangeOrder) (fuel : Nat) (sp : SP), newSP ord fuel g from_ = some sp →
      mapGet sp.edgeTo to_ = none ∧ sp.dist to_ = 0) ∧
    (∃ N : Nat, ∀ (ord : RangeOrder) (fuel : Nat), N ≤ fuel →
      (g.findRoute ord fuel from_ to_).map Prod.snd =
        some ([], some RouteError.ERR_NO_ROUTE)) ∧
    ∀ (ord : RangeOrder) (fuel : Nat) (g1 : RouteGraph) (r : List PubKey × Option RouteError),
      g.findRoute ord fuel from_ to_ = some (g1, r) →
        r = ([], some RouteError.ERR_NO_ROUTE) := by
  have hg := hb.graphOK
  have hkey := not_mem_keys_of_mapGet_none _ _ hto
  have hnone : ∀ (ord : RangeOrder) (fuel : Nat) (sp : SP), newSP ord fuel g from_ = some sp →
      mapGet sp.edgeTo to_ = none ∧ sp.dist to_ = 0 := by
    intro ord fuel sp hsp
    have := newSP_sink ord g hg hsw from_ fuel sp hsp to_ hkey
    exact ⟨this.2, this.1⟩
  refine ⟨hnone, ?_, ?_⟩
  · obtain ⟨N, hN⟩ := newSP_total g from_
    refine ⟨N + 1, ?_⟩
    intro ord fuel hle
    obtain ⟨sp, hsp⟩ := Option.isSome_iff_exists.mp (hN ord fuel (by omega))
    obtain ⟨k, rfl⟩ : ∃ k, fuel = k + 1 := ⟨fuel - 1, by omega⟩
    have hc : mapGet g.paths from_ = none := by rw [hb.paths_nil]; rfl
    rw [findRoute_fresh g ord (k + 1) from_ to_ hc, hsp]
    simp [pathTo_no_edge sp k to_ (hnone ord (k + 1) sp hsp).1]
  · intro ord fuel g1 r h
    obtain ⟨sp, hsp, hp⟩ := findRoute_built g hb ord fuel from_ to_ g1 r h
    cases fuel with
    | zero => simp [SP.pathTo, SP.pathToLoop] at hp
    | succ k =>
      rw [pathTo_no_edge sp k to_ (hnone ord (k + 1) sp hsp).1] at hp
      exact (Option.some.inj hp).symm

/-- C20 as amended, at concrete inputs: the chain `1 -> 2`, `2 -> 3`, `3 -> 4` of weight 1,
`from = 1`, `to = 4`. -/
theorem findRoute_sink_no_route_witness :
    (∀ (ord : RangeOrder) (fuel : Nat) (sp : SP),
      newSP ord fuel (((newGraph.addDirectRoute 1 2 1).addDirectRoute 2 3 1).addDirectRoute 3 4 1)
        1 = some sp → mapGet sp.edgeTo 4 = none ∧ sp.dist 4 = 0) ∧
    (∃ N : Nat, ∀ (ord : RangeOrder) (fuel : Nat), N ≤ fuel →
      ((((newGraph.addDirectRoute 1 2 1).addDirectRoute 2 3 1).addDirectRoute 3 4 1).findRoute
        ord fuel 1 4).map Prod.snd = some ([], some RouteError.ERR_NO_ROUTE)) ∧
    ∀ (ord : RangeOrder) (fuel : Nat) (g1 : RouteGraph) (r : List PubKey × Option RouteError),
      (((newGraph.addDirectRoute 1 2 1).addDirectRoute 2 3 1).addDirectRoute 3 4 1).findRoute
        ord fuel 1 4 = some (g1, r) → r = ([], some RouteError.ERR_NO_ROUTE) :=
  findRoute_sink_no_route _
    (Built.add _ 3 4 1 (Built.add _ 2 3 1 (Built.add _ 1 2 1 Built.empty)))
    (smallWeights_of_totalWeight _
      (Built.add _ 3 4 1 (Built.add _ 2 3 1 (Built.add _ 1 2 1 Built.empty))).graphOK
      (by decide)) 1 4 (by decide)

end Nodemanager
